import Mathlib

/-!
Verification of the package-assembly and graph-resolution engine of
go-app-builder (`parser.go`), against its natural-language specification.

The embedding follows the source file `src/go-app-builder/parser.go`:

* `topologicalSort` / `findCycle` act on `[]*Package` where dependency edges
  and the `selected` / `seen` sets are keyed by pointer identity.  We use the
  standard arena encoding of pointer identity: packages are natural-number
  ids, a `Graph` gives each id its import path and its dependency list, and
  the functions act on `List Nat`.
* In-place slice mutation (the swap `p[i], p[n] = p[n], pkg` and the reslice
  `p = p[n:]`) becomes explicit state passing; the unbounded `for` loops
  become structurally recursive functions driven by a fuel argument whose
  initial value provably dominates the number of iterations the Go loops
  perform.
* Go maps used as sets (`selected`, `pkgMap`) become membership in lists;
  Go maps used as assoc tables (`seen`, `PackageIndex`) become assoc lists
  where insertion prepends (a later insertion shadows an earlier one,
  matching map assignment).
* Fallible code returns `Except`/`Option`; a `nil`-pointer dereference that
  Go would panic on is modelled by `Option.none`.
-/

/-- Arena view of a set of `Package` objects: ids are `Nat`, and the graph
gives each id its `ImportPath` field and its `Dependencies` list (as ids). -/
structure Graph where
  importPath : Nat → String
  deps : Nat → List Nat

/-- State of one sweep of `topologicalSort`'s inner `packageLoop`
(parser.go:498-508): the `selected` set, the package slice after the swaps,
and the counter `n` of packages moved to the front. -/
structure SweepRes where
  sel : List Nat
  lst : List Nat
  cnt : Nat
deriving DecidableEq

/-- One sweep of the `packageLoop` of `topologicalSort` (parser.go:498-508).
`i` is the range index, `n` the count/marker.  A package all of whose
dependencies are selected is marked selected and swapped to position `n`
(`p[i], p[n] = p[n], pkg`).  The fuel is the number of remaining iterations,
`p.length - i`; the caller supplies exactly that. -/
def sweepAux (G : Graph) : Nat → List Nat → List Nat → Nat → Nat → SweepRes
  | 0, S, p, _, n => ⟨S, p, n⟩
  | fuel+1, S, p, i, n =>
    if (G.deps (p.getD i 0)).all (fun d => S.contains d) then
      sweepAux G fuel (p.getD i 0 :: S) ((p.set i (p.getD n 0)).set n (p.getD i 0)) (i+1) (n+1)
    else
      sweepAux G fuel S p (i+1) n

/-- Lookup in the `seen` map of `findCycle` (assoc list, latest entry first). -/
def seenLookup (seen : List (Nat × Nat)) (d : Nat) : Option Nat :=
  (seen.find? (fun e => e.1 == d)).map (fun e => e.2)

/-- The unbounded `for` loop of `findCycle` (parser.go:540-562).  `cycle` is
the walk so far, `seen` maps a package to its index in `cycle`.  Each round:
if some dependency of the last package of the walk is in `seen` at index `i`,
Go returns `cycle[i:]`; we return the pair `(cycle, i)` and the caller drops.
Otherwise the first dependency lying in `pkgSet` is appended to the walk; if
there is none, Go would set `dep = nil` and dereference it next round — that
panic, like fuel exhaustion, is modelled by `none`. -/
def findCycleAux (G : Graph) (pkgSet : List Nat) :
    Nat → List Nat → List (Nat × Nat) → Option (List Nat × Nat)
  | 0, _, _ => none
  | fuel+1, cycle, seen =>
    let last := cycle.getLastD 0
    match (G.deps last).findSome? (fun d => seenLookup seen d) with
    | some i => some (cycle, i)
    | none =>
      match (G.deps last).find? (fun d => pkgSet.contains d) with
      | none => none
      | some dep => findCycleAux G pkgSet fuel (cycle ++ [dep]) ((dep, cycle.length) :: seen)

/-- The scan of parser.go:529-534 choosing the package with the
lexicographically smallest import path (`min`), first wins on ties. -/
def findMin (G : Graph) (pkgs : List Nat) : Option Nat :=
  pkgs.foldl
    (fun mn pkg =>
      match mn with
      | none => some pkg
      | some m => if G.importPath pkg < G.importPath m then some pkg else some m)
    none

/-- `findCycle` (parser.go:526-563): start the walk at the lexicographically
smallest package, with `seen = {min ↦ 0}`, and return `cycle[i:]` once a
dependency of the end of the walk is revisited.  The fuel `pkgs.length + 1`
provably dominates the number of loop iterations (the walk adds a distinct
member of `pkgs` to `seen` every round). -/
def findCycle (G : Graph) (pkgs : List Nat) : Option (List Nat) :=
  match findMin G pkgs with
  | none => none
  | some m => (findCycleAux G pkgs (pkgs.length + 1) [m] [(m, 0)]).map (fun r => r.1.drop r.2)

/-- The error built at parser.go:511-517: the cycle's import paths joined by
`" -> "` with the first path repeated at the end.  The `none` branch models
the `nil` dereference Go would panic on when `findCycle`'s precondition
fails. -/
def cycleError (G : Graph) (p : List Nat) : String :=
  match findCycle G p with
  | some cycle =>
      "parser: cyclic dependency graph: " ++
        String.intercalate " -> " (cycle.map G.importPath ++ [G.importPath (cycle.headD 0)])
  | none => "panic: nil pointer dereference"

/-- The outer `for len(p) > 0` loop of `topologicalSort` (parser.go:488-522).
`acc` is the prefix of the underlying array already fixed by earlier
reslices `p = p[n:]`.  Each round sweeps the remaining slice; if nothing was
selected the cyclic-dependency error is returned, otherwise the selected
front is fixed and the loop continues on the rest.  The fuel
`p.length + 1` provably dominates the number of rounds (every non-final
round removes at least one package). -/
def topoSortAux (G : Graph) : Nat → List Nat → List Nat → List Nat → Except String (List Nat)
  | 0, _, _, _ => .error "out of fuel"
  | fuel+1, S, p, acc =>
    if p.isEmpty then .ok acc
    else
      let r := sweepAux G p.length S p 0 0
      if r.cnt = 0 then .error (cycleError G r.lst)
      else topoSortAux G fuel r.sel (r.lst.drop r.cnt) (acc ++ r.lst.take r.cnt)

/-- `topologicalSort` (parser.go:488-522) on the arena model: on success the
returned list is the final contents of the sorted slice. -/
def topologicalSort (G : Graph) (p : List Nat) : Except String (List Nat) :=
  topoSortAux G (p.length + 1) [] p []

/-- The character class of `legalImportPath` (parser.go:349):
`[a-zA-Z0-9_\-./~]`. -/
def legalImportChar (c : Char) : Bool :=
  ('a' ≤ c && c ≤ 'z') || ('A' ≤ c && c ≤ 'Z') || ('0' ≤ c && c ≤ '9') ||
    c = '_' || c = '-' || c = '.' || c = '/' || c = '~'

/-- `checkImport` (parser.go:352-369).  Paths are `List Char` (Go `len` and
the regex agree with character counts here: every byte of a multi-byte rune
is outside the ASCII class, so such strings are rejected either way).
`filepath.IsAbs` on Unix is "starts with `/`"; `strings.Contains(path, "..")`
is the infix test; the regex `^[a-zA-Z0-9_\-./~]+$` is "nonempty and every
character legal", and emptiness was already rejected. -/
def checkImport (path : List Char) : Bool :=
  if path = [] then false
  else if path.length > 1024 then false
  else if path.headD ' ' = '/' || ['.', '.'] <:+: path then false
  else if !path.all legalImportChar then false
  else if path = "syscall".toList || path = "unsafe".toList then false
  else true

/-- Go `filepath.Base`: `"."` for the empty path, trailing slashes dropped,
`"/"` if the path is all slashes, otherwise the last path component. -/
def filepathBase (s : String) : String :=
  if s.isEmpty then "."
  else
    let l := s.toList.reverse.dropWhile (fun c => c = '/')
    if l = [] then "/"
    else String.mk (l.takeWhile (fun c => c ≠ '/')).reverse

/-- An element of a composite literal: in `compLitChecker.Visit` only the
distinction `*ast.KeyValueExpr` versus anything else matters
(parser.go:434-437). -/
inductive LitElt
  | keyValue
  | plain
deriving DecidableEq

/-- The type expression of a composite literal: `sel x field` is a
`*ast.SelectorExpr` whose `X` is an `*ast.Ident` (`x.field`); every other
shape makes `Visit` return early (parser.go:414-421). -/
inductive LitTypeExpr
  | sel (x : String) (field : String)
  | other
deriving DecidableEq

/-- An `*ast.CompositeLit`: its source position, type expression and
element list. -/
structure CompLit where
  pos : Nat
  typ : LitTypeExpr
  elts : List LitElt
deriving DecidableEq

/-- A `*scanner.Error` as appended by `compLitChecker.errorf`
(parser.go:384-389): a source position and a message. -/
structure CheckError where
  pos : Nat
  msg : String
deriving DecidableEq

/-- Lookup in the checker's `imports` map (local name to import path).  The
assoc list is prepended on insertion, so the first hit is the most recent
assignment, matching Go map overwrite. -/
def lookupLocal (imports : List (String × String)) (x : String) : Option String :=
  (imports.find? (fun e => e.1 == x)).map (fun e => e.2)

/-- The composite-literal branch of `compLitChecker.Visit`
(parser.go:410-443): for a literal of shape `x.field{...}` with `x` tracked
as a standard-library import, not exempted by the whitelist, and with at
least one element that is not a key-value entry, produce the error that
`errorf` records (the fold `allTags = allTags && ok` is `List.all`). -/
def checkLit (imports : List (String × String)) (wl : List String) (lit : CompLit) :
    Option CheckError :=
  match lit.typ with
  | .other => none
  | .sel x field =>
    match lookupLocal imports x with
    | none => none
    | some pth =>
      if wl.contains (pth ++ "." ++ field) then none
      else if lit.elts.all (fun e => e == LitElt.keyValue) then none
      else some ⟨lit.pos, "composite struct literal " ++ pth ++ "." ++ field ++
                  " with untagged fields"⟩

/-- The two entries `init` registers in `untaggedLiteralWhitelist`
(parser.go:565-569); the base contents of the whitelist live outside this
source file, so the checker takes the whitelist as a parameter and `init`
is modelled as prepending these two entries. -/
def initWhitelist (wl : List String) : List String :=
  "appengine/datastore.PropertyList" :: "appengine.MultiError" :: wl

/-- A node of the walked file, as far as `compLitChecker.Visit`
distinguishes them: an `*ast.ImportSpec` (with optional local name and its
unquoted path), an `*ast.CompositeLit`, or anything else.  `ast.Walk`'s
pre-order traversal of the file is modelled as the list of nodes in visit
order (`Visit` always returns the checker, so the walk never prunes). -/
inductive GoNode
  | importSpec (pos : Nat) (name : Option String) (path : String)
  | compLit (lit : CompLit)
  | otherNode
deriving DecidableEq

/-- The mutable state of `compLitChecker`: the tracked aliases of
standard-library packages and the accumulated error list. -/
structure CheckerState where
  imports : List (String × String)
  errors : List CheckError
deriving DecidableEq

/-- One `Visit` call (parser.go:391-443).  Import specs of standard
packages are tracked under their explicit alias (a `.` alias is skipped) or
their last path component; composite-literal violations append to
`errors`. -/
def visitNode (isStd : String → Bool) (wl : List String) (st : CheckerState)
    (n : GoNode) : CheckerState :=
  match n with
  | .importSpec _ name pth =>
    if !isStd pth then st
    else
      match name with
      | some id => if id = "." then st else { st with imports := (id, pth) :: st.imports }
      | none => { st with imports := (filepathBase pth, pth) :: st.imports }
  | .compLit lit =>
    match checkLit st.imports wl lit with
    | some e => { st with errors := st.errors ++ [e] }
    | none => st
  | .otherNode => st

/-- `ast.Walk(ch, file)` over the node list (parser.go:336). -/
def runChecker (isStd : String → Bool) (wl : List String) (st : CheckerState)
    (nodes : List GoNode) : CheckerState :=
  nodes.foldl (visitNode isStd wl) st

/-- The literal-check tail of `parseFile` (parser.go:334-339): walk the file
with a fresh checker and fail with the accumulated error list if it is
nonempty. -/
def parseFileCheck (isStd : String → Bool) (wl : List String) (nodes : List GoNode) :
    Except (List CheckError) Unit :=
  let st := runChecker isStd wl ⟨[], []⟩ nodes
  if st.errors.isEmpty then .ok () else .error st.errors

/-- A `File` record (parser.go:56-61). -/
structure GFile where
  name : String
  packageName : String
  importPaths : List String
  hasInit : Bool
deriving DecidableEq, Inhabited

/-- A `Package` record (parser.go:36-43); `Dependencies` is populated only
through the arena graph (`appGraph`), matching the pointer-based edges. -/
structure GPackage where
  importPath : String
  files : List GFile
  baseDir : String
  hasInit : Bool
  dupe : Bool
deriving DecidableEq, Inhabited

/-- The parts of the `App` aggregate (parser.go:27-33) the claims touch:
the package list and the import-path index.  `PackageIndex` is an assoc
list where insertion prepends (map assignment overwrites). -/
structure AppState where
  packages : List GPackage
  index : List (String × GPackage)
deriving DecidableEq, Inhabited

/-- Lookup in `App.PackageIndex`. -/
def lookupIndex (idx : List (String × GPackage)) (path : String) : Option GPackage :=
  (idx.find? (fun e => e.1 == path)).map (fun e => e.2)

/-- `fmt.Sprintf("%05d", n)`: decimal digits of `n` left-padded with zeros
to width 5. -/
def pad5 (n : Nat) : String :=
  let s := toString n
  String.mk (List.replicate (5 - s.length) '0') ++ s

/-- The synthetic import path for top-level files (parser.go:171-174):
`fmt.Sprintf("main%05d", rng.Intn(1e5))`, with the random draw an explicit
argument. -/
def syntheticImportPath (rnd : Nat) : String :=
  "main" ++ pad5 rnd

/-- The per-directory body of the package-creation loop of `ParseFiles`
(parser.go:167-200): derive the import path (synthetic for the top-level
directory `"."`, otherwise the slash-normalized directory name, which
these strings already are), reject the reserved path `"main"`, reject
un-allow-listed standard-library shadows, and derive `HasInit`. -/
def createPackage (isStd : String → Bool) (allowedDupes : List String)
    (dirname : String) (rnd : Nat) (files : List GFile) : Except String GPackage :=
  let imp := if dirname = "." then syntheticImportPath rnd else dirname
  if imp = "main" then .error "top-level main package is forbidden"
  else if isStd imp && !allowedDupes.contains imp then
    .error ("package \"" ++ imp ++ "\" has the same name as a standard package")
  else
    .ok { importPath := imp, files := files, baseDir := "",
          hasInit := files.any (fun f => f.hasInit), dupe := isStd imp }

/-- The result of `gopathPackage` (a `*build.Package`): the fields
`addFromGOPATH` reads. -/
structure BuildPkg where
  name : String
  goFiles : List String
  imports : List String
  dir : String
deriving DecidableEq, Inhabited

/-- The collaborators of `addFromGOPATH`: the standard-library oracle
`isStandardPackage`, the workspace oracle `gopathPackage`, and the optional
`-nobuild_files` pattern (as a matcher over the joined path). -/
structure ResolveEnv where
  isStd : String → Bool
  gopath : String → Except String BuildPkg
  noBuild : Option (String → Bool)

/-- The `-nobuild_files` test `noBuild.MatchString(filepath.Join(path, f))`
(parser.go:266); a `nil` pattern excludes nothing. -/
def excluded (noBuild : Option (String → Bool)) (path f : String) : Bool :=
  match noBuild with
  | none => false
  | some m => m (path ++ "/" ++ f)

/-- The filtered `File` records built for an external package
(parser.go:264-276): the `GoFiles` surviving the exclusion filter, each
carrying the package's declared imports. -/
def gopathFiles (env : ResolveEnv) (path : String) (bpkg : BuildPkg) : List GFile :=
  (bpkg.goFiles.filter (fun f => !excluded env.noBuild path f)).map
    (fun f => { name := f, packageName := bpkg.name, importPaths := bpkg.imports,
                hasInit := false })

/-- Processing of one import path in `addFromGOPATH`'s inner loops
(parser.go:251-287): skip standard and already-indexed paths; a workspace
lookup failure is logged and skipped (the `warned` map only deduplicates
the log line); a package whose files are all excluded fails the build;
otherwise the new package is appended and indexed. -/
def processImport (env : ResolveEnv) (app : AppState) (path : String) :
    Except String AppState :=
  if env.isStd path then .ok app
  else if (lookupIndex app.index path).isSome then .ok app
  else
    match env.gopath path with
    | .error _ => .ok app
    | .ok bpkg =>
      let files := gopathFiles env path bpkg
      if files.isEmpty then
        .error ("package " ++ path ++ " required, but all its files were excluded by nobuild_files")
      else
        let p : GPackage := { importPath := path, files := files, baseDir := bpkg.dir,
                              hasInit := false, dupe := false }
        .ok { packages := app.packages ++ [p], index := (path, p) :: app.index }

/-- The two inner loops of `addFromGOPATH` over one package's files and
their import paths (parser.go:250-252), threading the growing app. -/
def processPackage (env : ResolveEnv) (app : AppState) (p : GPackage) :
    Except String AppState :=
  (p.files.flatMap (fun f => f.importPaths)).foldlM (processImport env) app

/-- The growing-worklist loop `for i := 0; i < len(app.Packages); i++`
(parser.go:248-289): the slice is appended to while being indexed, so the
loop also visits the packages added during the pass.  The fuel bounds the
number of iterations; callers supply a value dominating the final package
count. -/
def addLoop (env : ResolveEnv) : Nat → AppState → Nat → Except String AppState
  | 0, _, _ => .error "out of fuel"
  | fuel+1, app, i =>
    if h : i < app.packages.length then
      match processPackage env app (app.packages.get ⟨i, h⟩) with
      | .error e => .error e
      | .ok app' => addLoop env fuel app' (i+1)
    else .ok app

/-- `addFromGOPATH` (parser.go:246-291). -/
def addFromGOPATH (env : ResolveEnv) (fuel : Nat) (app : AppState) :
    Except String AppState :=
  addLoop env fuel app 0

/-- The dependency-population body for one package (parser.go:217-235):
the set of import paths across the package's files (a Go map; its
iteration order is immaterial because the result is sorted), resolved
against the index with misses dropped, sorted by import path. -/
def depsFor (idx : List (String × GPackage)) (p : GPackage) : List GPackage :=
  let paths := (p.files.flatMap (fun f => f.importPaths)).dedup
  let deps := paths.filterMap (fun path => lookupIndex idx path)
  List.insertionSort (fun a b => a.importPath ≤ b.importPath) deps

/-- The arena graph of an assembled app: node `k` is `app.packages[k]`, its
dependency edges are the positions of the packages `depsFor` resolves —
the index-based encoding of the `Dependencies` pointer lists the sorter
consumes. -/
def appGraph (app : AppState) : Graph where
  importPath k := (app.packages.getD k default).importPath
  deps k := (depsFor app.index (app.packages.getD k default)).filterMap
    (fun d => app.packages.findIdx? (fun q => q.importPath == d.importPath))

/-- The `Package` literal built for a resolved external package
(parser.go:280-284): the import path, the filtered files, and the
workspace directory as `BaseDir`. -/
def gopathPackageRecord (env : ResolveEnv) (path : String) (bpkg : BuildPkg) : GPackage :=
  { importPath := path, files := gopathFiles env path bpkg, baseDir := bpkg.dir,
    hasInit := false, dupe := false }

/-- Acyclicity of the dependency graph restricted to a package list: no
package transitively depends on itself through members of the list
(`a ∈ G.deps b` reads "`a` is a dependency of `b`"). -/
def AcyclicOn (G : Graph) (l : List Nat) : Prop :=
  ∀ x, ¬ Relation.TransGen (fun a b => a ∈ l ∧ b ∈ l ∧ a ∈ G.deps b) x x

/-- C3: `checkImport` rejects an import path iff it is empty, longer than
1024 characters, contains the substring `".."`, is absolute (starts with
`/`), has a character outside `[a-zA-Z0-9_\-./~]`, or equals `"syscall"`
or `"unsafe"`; every other string is accepted. -/
theorem checkImport_reject_iff (path : List Char) :
    checkImport path = false ↔
      (path = [] ∨ 1024 < path.length ∨ (['.', '.'] <:+: path) ∨
        path.headD ' ' = '/' ∨ (∃ c ∈ path, legalImportChar c = false) ∨
        path = "syscall".toList ∨ path = "unsafe".toList) := by
  unfold checkImport
  split_ifs with h1 h2 h3 h4 h5 <;> simp_all [List.all_eq_true]
  tauto

/-- C4: for a composite literal `x.field { ... }` whose qualifier `x` is
tracked as a standard-library import of path `pth`, the checker flags the
literal iff the pair `pth.field` is not whitelisted and some element is not
a key-value entry; a literal all of whose elements are keyed is never
flagged, whatever the whitelist. -/
theorem checkLit_flag_iff (imports : List (String × String)) (wl : List String)
    (x field : String) (ps : Nat) (elts : List LitElt) (pth : String)
    (htr : lookupLocal imports x = some pth) :
    ((checkLit imports wl ⟨ps, .sel x field, elts⟩).isSome = true ↔
        ((pth ++ "." ++ field) ∉ wl ∧ ∃ e ∈ elts, e ≠ LitElt.keyValue)) ∧
      ((∀ e ∈ elts, e = LitElt.keyValue) →
        checkLit imports wl ⟨ps, .sel x field, elts⟩ = none) := by
  constructor
  · simp only [checkLit, htr]
    split_ifs with h1 h2 <;>
      simp_all [List.contains, List.elem_iff, List.all_eq_true]
    all_goals tauto
  · intro hall
    simp only [checkLit, htr]
    have : elts.all (fun e => e == LitElt.keyValue) = true := by
      simp [List.all_eq_true]
      exact hall
    split_ifs <;> simp_all

/-- C4 witness: with `json` tracked as `encoding/json` and an unrelated
whitelist, a literal with one positional element is flagged and an
all-keyed literal is not. -/
theorem checkLit_flag_iff_witness :
    ((checkLit [("json", "encoding/json")] (initWhitelist [])
        ⟨7, .sel "json" "Decoder", [LitElt.plain]⟩).isSome = true ↔
      (("encoding/json" ++ "." ++ "Decoder") ∉ initWhitelist [] ∧
        ∃ e ∈ [LitElt.plain], e ≠ LitElt.keyValue)) ∧
      ((∀ e ∈ [LitElt.plain], e = LitElt.keyValue) →
        checkLit [("json", "encoding/json")] (initWhitelist [])
          ⟨7, .sel "json" "Decoder", [LitElt.plain]⟩ = none) :=
  checkLit_flag_iff [("json", "encoding/json")] (initWhitelist []) "json" "Decoder" 7
    [LitElt.plain] "encoding/json" (by decide)

/-- A recorded literal error carries the literal's own source position
(`errorf` uses `node.Pos()`). -/
theorem checkLit_pos (imports : List (String × String)) (wl : List String)
    (lit : CompLit) (e : CheckError) (h : checkLit imports wl lit = some e) :
    e.pos = lit.pos := by
  rcases lit with ⟨p0, ty, elts⟩
  cases ty with
  | other => simp [checkLit] at h
  | sel x field =>
    simp only [checkLit] at h
    cases hl : lookupLocal imports x with
    | none => rw [hl] at h; simp at h
    | some pth =>
      rw [hl] at h
      split_ifs at h <;> simp_all
      rw [← h.2]

/-- One `Visit` step appends to the error list and updates the imports
independently of the errors already recorded. -/
theorem visitNode_split (isStd : String → Bool) (wl : List String)
    (imps : List (String × String)) (errs : List CheckError) (n : GoNode) :
    visitNode isStd wl ⟨imps, errs⟩ n =
      ⟨(visitNode isStd wl ⟨imps, []⟩ n).imports,
        errs ++ (visitNode isStd wl ⟨imps, []⟩ n).errors⟩ := by
  cases n with
  | importSpec p name pth =>
    simp only [visitNode]
    cases name with
    | none => by_cases h1 : isStd pth <;> simp [h1]
    | some id =>
      by_cases h1 : isStd pth <;> by_cases h2 : id = "." <;> simp [h1, h2]
  | compLit lit =>
    simp only [visitNode]
    cases h : checkLit imps wl lit <;> simp [h]
  | otherNode => simp [visitNode]

/-- The walk only appends errors: running from any starting error list
yields the starting list followed by the errors produced from scratch, and
the tracked imports do not depend on the recorded errors. -/
theorem runChecker_split (isStd : String → Bool) (wl : List String) :
    ∀ (nodes : List GoNode) (imps : List (String × String)) (errs : List CheckError),
      runChecker isStd wl ⟨imps, errs⟩ nodes =
        ⟨(runChecker isStd wl ⟨imps, []⟩ nodes).imports,
          errs ++ (runChecker isStd wl ⟨imps, []⟩ nodes).errors⟩ := by
  intro nodes
  induction nodes with
  | nil => intro imps errs; simp [runChecker]
  | cons n rest ih =>
    intro imps errs
    show runChecker isStd wl (visitNode isStd wl ⟨imps, errs⟩ n) rest = _
    rw [visitNode_split isStd wl imps errs n,
      ih (visitNode isStd wl ⟨imps, []⟩ n).imports
        (errs ++ (visitNode isStd wl ⟨imps, []⟩ n).errors)]
    have hrhs : runChecker isStd wl ⟨imps, []⟩ (n :: rest) =
        runChecker isStd wl (visitNode isStd wl ⟨imps, []⟩ n) rest := rfl
    rw [hrhs]
    have : visitNode isStd wl ⟨imps, []⟩ n =
        ⟨(visitNode isStd wl ⟨imps, []⟩ n).imports,
          (visitNode isStd wl ⟨imps, []⟩ n).errors⟩ := rfl
    conv_rhs => rw [this, ih]
    simp

/-- Every error produced by a walk from an empty error list is positioned
at some composite literal among the walked nodes. -/
theorem runChecker_pos (isStd : String → Bool) (wl : List String) :
    ∀ (nodes : List GoNode) (imps : List (String × String)),
      ∀ e ∈ (runChecker isStd wl ⟨imps, []⟩ nodes).errors,
        ∃ lit, GoNode.compLit lit ∈ nodes ∧ e.pos = lit.pos := by
  intro nodes
  induction nodes with
  | nil => intro imps e he; simp [runChecker] at he
  | cons n rest ih =>
    intro imps e he
    have hstep : runChecker isStd wl ⟨imps, []⟩ (n :: rest) =
        runChecker isStd wl (visitNode isStd wl ⟨imps, []⟩ n) rest := rfl
    rw [hstep] at he
    have hv : visitNode isStd wl ⟨imps, []⟩ n =
        ⟨(visitNode isStd wl ⟨imps, []⟩ n).imports,
          (visitNode isStd wl ⟨imps, []⟩ n).errors⟩ := rfl
    rw [hv, runChecker_split] at he
    rw [List.mem_append] at he
    rcases he with he | he
    · -- e was produced by the step on n
      cases n with
      | importSpec p name pth =>
        exfalso
        revert he
        cases name with
        | none => by_cases h1 : isStd pth <;> simp [visitNode, h1]
        | some id =>
          by_cases h1 : isStd pth <;> by_cases h2 : id = "." <;>
            simp [visitNode, h1, h2]
      | compLit lit =>
        refine ⟨lit, by simp, ?_⟩
        revert he
        simp only [visitNode]
        cases h : checkLit imps wl lit with
        | none => simp
        | some e0 =>
          intro he
          simp at he
          exact he ▸ checkLit_pos imps wl lit e0 h
      | otherNode => simp [visitNode] at he
    · rcases ih _ e he with ⟨lit, hmem, hpos⟩
      exact ⟨lit, by simp [hmem], hpos⟩

/-- C9: a file with literal-tagging violations fails extraction with the
aggregated list of all recorded violations, each carrying its source
position.  The walk never stops early: running on `nodes ++ more`
continues into `more` from the state after `nodes`, and every recorded
error is only ever appended to, never replacing, the earlier ones. -/
theorem parseFile_aggregates (isStd : String → Bool) (wl : List String)
    (nodes more : List GoNode) (imps : List (String × String)) (errs : List CheckError) :
    (runChecker isStd wl ⟨imps, errs⟩ (nodes ++ more) =
        runChecker isStd wl (runChecker isStd wl ⟨imps, errs⟩ nodes) more) ∧
      ((runChecker isStd wl ⟨imps, errs⟩ nodes).errors =
        errs ++ (runChecker isStd wl ⟨imps, []⟩ nodes).errors) ∧
      (∀ e ∈ (runChecker isStd wl ⟨imps, []⟩ nodes).errors,
        ∃ lit, GoNode.compLit lit ∈ nodes ∧ e.pos = lit.pos) ∧
      ((runChecker isStd wl ⟨[], []⟩ nodes).errors ≠ [] →
        parseFileCheck isStd wl nodes =
          .error (runChecker isStd wl ⟨[], []⟩ nodes).errors) := by
  refine ⟨List.foldl_append _ _ _ _, ?_, runChecker_pos isStd wl nodes imps, ?_⟩
  · rw [runChecker_split]
  · intro h
    unfold parseFileCheck
    simp [h]

/-- C9 witness: a file importing `encoding/json` with two positional
`json.Decoder` literals fails extraction with both violations, in walk
order, at their positions. -/
theorem parseFile_aggregates_witness :
    parseFileCheck (fun s => s == "encoding/json") []
        [GoNode.importSpec 1 none "encoding/json",
          GoNode.compLit ⟨5, .sel "json" "Decoder", [LitElt.plain]⟩,
          GoNode.compLit ⟨9, .sel "json" "Decoder", [LitElt.keyValue, LitElt.plain]⟩] =
      .error
        [⟨5, "composite struct literal encoding/json.Decoder with untagged fields"⟩,
          ⟨9, "composite struct literal encoding/json.Decoder with untagged fields"⟩] := by
  have h := (parseFile_aggregates (fun s => s == "encoding/json") []
    [GoNode.importSpec 1 none "encoding/json",
      GoNode.compLit ⟨5, .sel "json" "Decoder", [LitElt.plain]⟩,
      GoNode.compLit ⟨9, .sel "json" "Decoder", [LitElt.keyValue, LitElt.plain]⟩]
    [] [] []).2.2.2 (by decide)
  rw [h]
  rfl

/-- C8: during external resolution of a path that is not standard, not yet
indexed and found in the workspace: if the exclusion filter drops every
file, resolution fails with an error naming the package, and the error
aborts the file loop and the worklist loop; otherwise the package record
is appended with its base directory and registered in the index. -/
theorem addFromGOPATH_exclusion (env : ResolveEnv) (app : AppState) (path : String)
    (bpkg : BuildPkg)
    (hstd : env.isStd path = false)
    (hidx : lookupIndex app.index path = none)
    (hg : env.gopath path = .ok bpkg) :
    (gopathFiles env path bpkg = [] →
        processImport env app path =
          .error ("package " ++ path ++
            " required, but all its files were excluded by nobuild_files")) ∧
      (gopathFiles env path bpkg ≠ [] →
        processImport env app path = .ok
          { packages := app.packages ++ [gopathPackageRecord env path bpkg],
            index := (path, gopathPackageRecord env path bpkg) :: app.index } ∧
        lookupIndex ((path, gopathPackageRecord env path bpkg) :: app.index) path =
          some (gopathPackageRecord env path bpkg)) ∧
      (∀ (q : GPackage) (rest : List String) (e : String),
        q.files.flatMap (fun f => f.importPaths) = path :: rest →
        processImport env app path = .error e →
        processPackage env app q = .error e) ∧
      (∀ (fuel i : Nat) (e : String) (h : i < app.packages.length),
        processPackage env app (app.packages.get ⟨i, h⟩) = .error e →
        addLoop env (fuel + 1) app i = .error e) := by
  refine ⟨?_, ?_, ?_, ?_⟩
  · intro hempty
    unfold processImport
    rw [hstd, hidx, hg]
    simp [hempty]
  · intro hne
    unfold processImport
    rw [hstd, hidx, hg]
    simp only [Option.isSome_none, Bool.false_eq_true, if_false, if_neg]
    constructor
    · simp [List.isEmpty_iff, hne, gopathPackageRecord]
    · simp [lookupIndex]
  · intro q rest e hflat herr
    unfold processPackage
    rw [hflat]
    rw [List.foldlM_cons, herr]
    rfl
  · intro fuel i e h herr
    unfold addLoop
    rw [dif_pos h, herr]

/-- C8 witness: a workspace package `lib` whose only file is excluded by the
pattern makes resolution fail with the error naming `lib`. -/
theorem addFromGOPATH_exclusion_witness :
    processImport
        ⟨fun _ => false,
          fun s => if s = "lib" then .ok ⟨"lib", ["x.go"], [], "/gp/src/lib"⟩
            else .error "not found",
          some (fun _ => true)⟩
        ⟨[], []⟩ "lib" =
      .error "package lib required, but all its files were excluded by nobuild_files" := by
  have h := (addFromGOPATH_exclusion
    ⟨fun _ => false,
      fun s => if s = "lib" then .ok ⟨"lib", ["x.go"], [], "/gp/src/lib"⟩
        else .error "not found",
      some (fun _ => true)⟩
    ⟨[], []⟩ "lib" ⟨"lib", ["x.go"], [], "/gp/src/lib"⟩ rfl rfl (by simp)).1 rfl
  simpa using h

/-- The import paths of the resolved dependency records are exactly the
looked-up paths that hit the index (using that the index is keyed by the
packages' own import paths). -/
theorem filterMap_lookup_map_importPath (idx : List (String × GPackage))
    (hwf : ∀ path pkg, lookupIndex idx path = some pkg → pkg.importPath = path) :
    ∀ paths : List String,
      (paths.filterMap (fun path => lookupIndex idx path)).map (fun q => q.importPath) =
        paths.filter (fun path => (lookupIndex idx path).isSome) := by
  intro paths
  induction paths with
  | nil => rfl
  | cons a rest ih =>
    cases h : lookupIndex idx a with
    | none => simp [List.filterMap_cons, List.filter_cons, h, ih]
    | some pkg => simp [List.filterMap_cons, List.filter_cons, h, ih, hwf a pkg h]

/-- A list whose image under `f` has no duplicates is pairwise
`f`-distinct. -/
theorem pairwise_ne_of_nodup_map {α β : Type} (f : α → β) :
    ∀ l : List α, (l.map f).Nodup → l.Pairwise (fun a b => f a ≠ f b) := by
  intro l
  induction l with
  | nil => intro _; exact List.Pairwise.nil
  | cons a rest ih =>
    intro h
    rw [List.map_cons, List.nodup_cons] at h
    refine List.Pairwise.cons ?_ (ih h.2)
    intro b hb heq
    exact h.1 (heq ▸ List.mem_map_of_mem f hb)

/-- C6: after dependency population, a package's dependency list is
strictly increasing in import path, contains a package iff some file of
the package imports the path it is indexed under (misses produce no entry
— and `depsFor` is total, so no error either), and contains each resolved
package exactly once. -/
theorem depsFor_spec (idx : List (String × GPackage)) (p : GPackage)
    (hwf : ∀ path pkg, lookupIndex idx path = some pkg → pkg.importPath = path) :
    List.Pairwise (fun a b => a.importPath < b.importPath) (depsFor idx p) ∧
      (∀ pkg, pkg ∈ depsFor idx p ↔
        ∃ path ∈ p.files.flatMap (fun f => f.importPaths),
          lookupIndex idx path = some pkg) ∧
      ∀ pkg ∈ depsFor idx p, (depsFor idx p).count pkg = 1 := by
  haveI hto : IsTotal GPackage (fun a b => a.importPath ≤ b.importPath) :=
    ⟨fun a b => le_total _ _⟩
  haveI htr : IsTrans GPackage (fun a b => a.importPath ≤ b.importPath) :=
    ⟨fun _ _ _ hab hbc => le_trans hab hbc⟩
  have hperm : List.Perm (depsFor idx p)
      ((p.files.flatMap (fun f => f.importPaths)).dedup.filterMap
        (fun path => lookupIndex idx path)) :=
    List.perm_insertionSort _ _
  have hsorted : List.Pairwise (fun a b => a.importPath ≤ b.importPath) (depsFor idx p) :=
    List.sorted_insertionSort _ _
  have hdedupnodup :
      (((p.files.flatMap (fun f => f.importPaths)).dedup.filterMap
        (fun path => lookupIndex idx path)).map (fun q => q.importPath)).Nodup := by
    rw [filterMap_lookup_map_importPath idx hwf]
    exact (List.filter_sublist _).nodup (List.nodup_dedup _)
  have hmapnodup : ((depsFor idx p).map (fun q => q.importPath)).Nodup :=
    ((hperm.map (fun q => q.importPath)).nodup_iff).2 hdedupnodup
  have hpne : (depsFor idx p).Pairwise (fun a b => a.importPath ≠ b.importPath) :=
    pairwise_ne_of_nodup_map _ _ hmapnodup
  have hlt : List.Pairwise (fun a b => a.importPath < b.importPath) (depsFor idx p) :=
    (hsorted.and hpne).imp (fun h => lt_of_le_of_ne h.1 h.2)
  have hnodup : (depsFor idx p).Nodup :=
    hpne.imp (fun hne heq => hne (congrArg (fun q => q.importPath) heq))
  refine ⟨hlt, ?_, fun pkg hm => List.count_eq_one_of_mem hnodup hm⟩
  intro pkg
  rw [hperm.mem_iff, List.mem_filterMap]
  constructor
  · rintro ⟨path, hp, hl⟩
    exact ⟨path, List.mem_dedup.1 hp, hl⟩
  · rintro ⟨path, hp, hl⟩
    exact ⟨path, List.mem_dedup.2 hp, hl⟩

/-- C6 witness: a package importing `zzz` (unknown) and `x` twice, against
an index containing only `x`, gets a dependency list satisfying the spec. -/
theorem depsFor_spec_witness :
    List.Pairwise (fun a b => a.importPath < b.importPath)
        (depsFor [("x", ⟨"x", [], "", false, false⟩)]
          ⟨"p", [⟨"f.go", "p", ["zzz", "x", "x"], false⟩], "", false, false⟩) ∧
      (∀ pkg, pkg ∈ depsFor [("x", ⟨"x", [], "", false, false⟩)]
            ⟨"p", [⟨"f.go", "p", ["zzz", "x", "x"], false⟩], "", false, false⟩ ↔
        ∃ path ∈ (GPackage.files
            ⟨"p", [⟨"f.go", "p", ["zzz", "x", "x"], false⟩], "", false, false⟩).flatMap
              (fun f => f.importPaths),
          lookupIndex [("x", ⟨"x", [], "", false, false⟩)] path = some pkg) ∧
      ∀ pkg ∈ depsFor [("x", ⟨"x", [], "", false, false⟩)]
            ⟨"p", [⟨"f.go", "p", ["zzz", "x", "x"], false⟩], "", false, false⟩,
        (depsFor [("x", ⟨"x", [], "", false, false⟩)]
          ⟨"p", [⟨"f.go", "p", ["zzz", "x", "x"], false⟩], "", false, false⟩).count pkg = 1 :=
  depsFor_spec [("x", ⟨"x", [], "", false, false⟩)]
    ⟨"p", [⟨"f.go", "p", ["zzz", "x", "x"], false⟩], "", false, false⟩
    (by
      intro path pkg h
      by_cases hx : ("x" : String) = path
      · subst hx
        simp [lookupIndex] at h
        rw [← h]
      · simp [lookupIndex, hx] at h)

/-- The synthetic top-level import path always has `"main"` followed by at
least five digits, so it is never the four-character string `"main"`. -/
theorem syntheticImportPath_ne_main (rnd : Nat) : syntheticImportPath rnd ≠ "main" := by
  intro h
  have hlen : (syntheticImportPath rnd).length = ("main" : String).length :=
    congrArg String.length h
  unfold syntheticImportPath pad5 at hlen
  simp [String.length_append] at hlen
  omega

/-- C5 (amended): no locally assembled package has import path `"main"` —
`createPackage` rejects it as fatal and the synthetic top-level path is
never the literal `"main"`.  (Packages added from GOPATH are not subject to
this check; see the counterexample.) -/
theorem localPackage_never_main :
    (∀ (isStd : String → Bool) (dupes : List String) (dirname : String) (rnd : Nat)
        (files : List GFile) (pkg : GPackage),
      createPackage isStd dupes dirname rnd files = .ok pkg → pkg.importPath ≠ "main") ∧
      ∀ rnd : Nat, syntheticImportPath rnd ≠ "main" := by
  refine ⟨?_, syntheticImportPath_ne_main⟩
  intro isStd dupes dirname rnd files pkg h hmain
  by_cases hdir : dirname = "."
  · unfold createPackage at h
    simp only [hdir, if_true, reduceIte] at h
    split_ifs at h with hm hs
    simp only [Except.ok.injEq] at h
    apply syntheticImportPath_ne_main rnd
    rw [← h] at hmain
    exact hmain
  · unfold createPackage at h
    simp only [hdir, if_false, reduceIte] at h
    split_ifs at h with hm hs
    simp only [Except.ok.injEq] at h
    apply hm
    rw [← h] at hmain
    exact hmain

/-- C5 witness (for the amended claim): a concrete subdirectory package is
assembled and its import path is not `"main"`. -/
theorem localPackage_never_main_witness :
    createPackage (fun _ => false) [] "sub/dir" 0 [] =
        .ok ⟨"sub/dir", [], "", false, false⟩ ∧
      GPackage.importPath ⟨"sub/dir", [], "", false, false⟩ ≠ "main" :=
  ⟨rfl, localPackage_never_main.1 (fun _ => false) [] "sub/dir" 0 []
    ⟨"sub/dir", [], "", false, false⟩ rfl⟩

/-- C5 counterexample: external (GOPATH) resolution performs no check
against the reserved import path: a workspace package named `main` is
registered, the build completes successfully, and the final app contains a
package whose import path is the literal `"main"`. -/
theorem gopath_main_counterexample :
    addFromGOPATH
        ⟨fun _ => false,
          fun s => if s = "main" then .ok ⟨"main", ["m.go"], [], "/gp/src/main"⟩
            else .error "nf",
          none⟩
        3
        ⟨[⟨"p1", [⟨"a.go", "p1", ["main"], false⟩], "", false, false⟩],
          [("p1", ⟨"p1", [⟨"a.go", "p1", ["main"], false⟩], "", false, false⟩)]⟩ =
      .ok
        ⟨[⟨"p1", [⟨"a.go", "p1", ["main"], false⟩], "", false, false⟩,
            ⟨"main", [⟨"m.go", "main", [], false⟩], "/gp/src/main", false, false⟩],
          [("main", ⟨"main", [⟨"m.go", "main", [], false⟩], "/gp/src/main", false, false⟩),
            ("p1", ⟨"p1", [⟨"a.go", "p1", ["main"], false⟩], "", false, false⟩)]⟩ ∧
      (∃ pkg ∈ AppState.packages
          ⟨[⟨"p1", [⟨"a.go", "p1", ["main"], false⟩], "", false, false⟩,
              ⟨"main", [⟨"m.go", "main", [], false⟩], "/gp/src/main", false, false⟩],
            [("main", ⟨"main", [⟨"m.go", "main", [], false⟩], "/gp/src/main", false, false⟩),
              ("p1", ⟨"p1", [⟨"a.go", "p1", ["main"], false⟩], "", false, false⟩)]⟩,
        pkg.importPath = "main") ∧
      topologicalSort
          (appGraph
            ⟨[⟨"p1", [⟨"a.go", "p1", ["main"], false⟩], "", false, false⟩,
                ⟨"main", [⟨"m.go", "main", [], false⟩], "/gp/src/main", false, false⟩],
              [("main", ⟨"main", [⟨"m.go", "main", [], false⟩], "/gp/src/main", false, false⟩),
                ("p1", ⟨"p1", [⟨"a.go", "p1", ["main"], false⟩], "", false, false⟩)]⟩)
          [0, 1] =
        .ok [1, 0] := by
  refine ⟨?_, ?_, ?_⟩
  · rfl
  · exact ⟨⟨"main", [⟨"m.go", "main", [], false⟩], "/gp/src/main", false, false⟩,
      by simp, rfl⟩
  · rfl

/-- Unfolding equation for one step of the sweep. -/
theorem sweepAux_succ (G : Graph) (fuel : Nat) (S p : List Nat) (i n : Nat) :
    sweepAux G (fuel+1) S p i n =
      if (G.deps (p.getD i 0)).all (fun d => S.contains d) then
        sweepAux G fuel (p.getD i 0 :: S) ((p.set i (p.getD n 0)).set n (p.getD i 0))
          (i+1) (n+1)
      else sweepAux G fuel S p (i+1) n := rfl

/-- Unfolding equation for one round of the sort loop. -/
theorem topoSortAux_succ (G : Graph) (fuel : Nat) (S p acc : List Nat) :
    topoSortAux G (fuel+1) S p acc =
      if p.isEmpty then .ok acc
      else if (sweepAux G p.length S p 0 0).cnt = 0 then
        .error (cycleError G (sweepAux G p.length S p 0 0).lst)
      else
        topoSortAux G fuel (sweepAux G p.length S p 0 0).sel
          ((sweepAux G p.length S p 0 0).lst.drop (sweepAux G p.length S p 0 0).cnt)
          (acc ++ (sweepAux G p.length S p 0 0).lst.take (sweepAux G p.length S p 0 0).cnt) :=
  rfl

/-- The Go `selected` check `!selected[dep]` over all dependencies, as a
membership statement. -/
theorem all_contains_iff (S l : List Nat) :
    (l.all (fun d => S.contains d) = true) ↔ ∀ d ∈ l, d ∈ S := by
  simp [List.all_eq_true, List.contains, List.elem_iff]

/-- Writing back the element already at an index is the identity. -/
theorem set_getD_self (p : List Nat) : ∀ i, i < p.length → p.set i (p.getD i 0) = p := by
  induction p with
  | nil => intro i h; simp at h
  | cons a tl ih =>
    intro i h
    cases i with
    | zero => simp
    | succ j =>
      simp only [List.getD_cons_succ, List.set_cons_succ]
      rw [ih j (by simpa using h)]

/-- Pulling the `j`-th element of `tl` to the head while writing `a` at
position `j` permutes `a :: tl`. -/
theorem getD_cons_set_perm (a : Nat) :
    ∀ (tl : List Nat) (j : Nat), j < tl.length →
      List.Perm (tl.getD j 0 :: tl.set j a) (a :: tl) := by
  intro tl
  induction tl with
  | nil => intro j h; simp at h
  | cons b tl' ih =>
    intro j h
    cases j with
    | zero => simpa using List.Perm.swap a b tl'
    | succ k =>
      simp only [List.getD_cons_succ, List.set_cons_succ]
      exact ((List.Perm.swap b (tl'.getD k 0) (tl'.set k a)).trans
        ((ih k (by simpa using h)).cons b)).trans (List.Perm.swap a b tl')

/-- The Go swap `p[i], p[n] = p[n], p[i]` (with `n ≤ i`) permutes the
slice. -/
theorem swap_set_perm : ∀ (p : List Nat) (n i : Nat), n ≤ i → i < p.length →
    List.Perm ((p.set i (p.getD n 0)).set n (p.getD i 0)) p := by
  intro p
  induction p with
  | nil => intro n i _ h; simp at h
  | cons a tl ih =>
    intro n i hni hi
    cases n with
    | zero =>
      cases i with
      | zero => simp
      | succ j =>
        simp only [List.getD_cons_zero, List.getD_cons_succ, List.set_cons_succ,
          List.set_cons_zero]
        exact getD_cons_set_perm a tl j (by simpa using hi)
    | succ m =>
      cases i with
      | zero => omega
      | succ j =>
        simp only [List.getD_cons_succ, List.set_cons_succ]
        exact (ih m j (by omega) (by simpa using hi)).cons a

/-- The sweep never changes the length of the slice. -/
theorem sweepAux_length (G : Graph) :
    ∀ (fuel : Nat) (S p : List Nat) (i n : Nat),
      (sweepAux G fuel S p i n).lst.length = p.length := by
  intro fuel
  induction fuel with
  | zero => intro S p i n; rfl
  | succ f ih =>
    intro S p i n
    rw [sweepAux_succ]
    split_ifs
    · rw [ih]; simp
    · exact ih S p (i+1) n

/-- The count only grows during a sweep, by at most the fuel. -/
theorem sweepAux_cnt_bounds (G : Graph) :
    ∀ (fuel : Nat) (S p : List Nat) (i n : Nat),
      n ≤ (sweepAux G fuel S p i n).cnt ∧ (sweepAux G fuel S p i n).cnt ≤ n + fuel := by
  intro fuel
  induction fuel with
  | zero => intro S p i n; show n ≤ n ∧ n ≤ n + 0; omega
  | succ f ih =>
    intro S p i n
    rw [sweepAux_succ]
    split_ifs
    · have h := ih (p.getD i 0 :: S) ((p.set i (p.getD n 0)).set n (p.getD i 0)) (i+1) (n+1)
      exact ⟨by omega, by omega⟩
    · have h := ih S p (i+1) n
      exact ⟨h.1, by omega⟩

/-- Positions before the current front marker are never touched again. -/
theorem sweepAux_take (G : Graph) :
    ∀ (fuel : Nat) (S p : List Nat) (i n : Nat), n ≤ i →
      (sweepAux G fuel S p i n).lst.take n = p.take n := by
  intro fuel
  induction fuel with
  | zero => intro S p i n _; rfl
  | succ f ih =>
    intro S p i n hni
    rw [sweepAux_succ]
    split_ifs
    · have h1 : ((p.set i (p.getD n 0)).set n (p.getD i 0)).take n = p.take n := by
        rw [List.set_take, List.set_take]
        rw [List.set_eq_of_length_le (by simp only [List.length_set, List.length_take]; omega),
          List.set_eq_of_length_le (by simp only [List.length_set, List.length_take]; omega)]
      have h2 := ih (p.getD i 0 :: S) ((p.set i (p.getD n 0)).set n (p.getD i 0))
        (i+1) (n+1) (by omega)
      have h3 : (sweepAux G f (p.getD i 0 :: S)
          ((p.set i (p.getD n 0)).set n (p.getD i 0)) (i+1) (n+1)).lst.take n =
          ((sweepAux G f (p.getD i 0 :: S)
            ((p.set i (p.getD n 0)).set n (p.getD i 0)) (i+1) (n+1)).lst.take (n+1)).take n := by
        rw [List.take_take]
        congr 1
        omega
      rw [h3, h2, List.take_take]
      have h4 : ((p.set i (p.getD n 0)).set n (p.getD i 0)).take (min n (n+1)) = p.take n := by
        rw [min_eq_left (by omega)]
        exact h1
      exact h4
    · exact ih S p (i+1) n (by omega)

/-- The sweep permutes the slice. -/
theorem sweepAux_perm (G : Graph) :
    ∀ (fuel : Nat) (S p : List Nat) (i n : Nat), n ≤ i → i + fuel = p.length →
      List.Perm (sweepAux G fuel S p i n).lst p := by
  intro fuel
  induction fuel with
  | zero => intro S p i n _ _; exact List.Perm.refl p
  | succ f ih =>
    intro S p i n hni hlen
    have hi : i < p.length := by omega
    rw [sweepAux_succ]
    split_ifs
    · have hperm := swap_set_perm p n i hni hi
      have hlen' : (i+1) + f = ((p.set i (p.getD n 0)).set n (p.getD i 0)).length := by
        simp; omega
      exact (ih (p.getD i 0 :: S) _ (i+1) (n+1) (by omega) hlen').trans hperm
    · exact ih S p (i+1) n (by omega) (by omega)

/-- Equal `take`s agree below the bound. -/
theorem getD_eq_of_take_eq (l1 l2 : List Nat) (n k : Nat) (hk : k < n)
    (h : l1.take n = l2.take n) : l1.getD k 0 = l2.getD k 0 := by
  rw [List.getD_eq_getElem?_getD, List.getD_eq_getElem?_getD]
  have h1 : l1[k]? = (l1.take n)[k]? := by rw [List.getElem?_take, if_pos hk]
  have h2 : l2[k]? = (l2.take n)[k]? := by rw [List.getElem?_take, if_pos hk]
  rw [h1, h2, h]

/-- After a package is swapped to position `n`, it stays there for the rest
of the sweep. -/
theorem sweepAux_front (G : Graph) (f : Nat) (S p : List Nat) (i n : Nat)
    (hni : n ≤ i) (hi : i < p.length) :
    (sweepAux G f (p.getD i 0 :: S) ((p.set i (p.getD n 0)).set n (p.getD i 0))
      (i+1) (n+1)).lst.getD n 0 = p.getD i 0 := by
  have htake := sweepAux_take G f (p.getD i 0 :: S)
    ((p.set i (p.getD n 0)).set n (p.getD i 0)) (i+1) (n+1) (by omega)
  rw [getD_eq_of_take_eq _ _ (n+1) n (by omega) htake]
  rw [List.getD_eq_getElem?_getD,
    List.getElem?_set_self (by simp only [List.length_set]; omega)]
  rfl

/-- Characterization of the `selected` set after a sweep: the packages
selected before plus the ones now sitting at positions `n ≤ k < cnt`. -/
theorem sweepAux_sel_iff (G : Graph) :
    ∀ (fuel : Nat) (S p : List Nat) (i n : Nat), n ≤ i → i + fuel = p.length →
      ∀ x, x ∈ (sweepAux G fuel S p i n).sel ↔
        (x ∈ S ∨ ∃ k, n ≤ k ∧ k < (sweepAux G fuel S p i n).cnt ∧
          (sweepAux G fuel S p i n).lst.getD k 0 = x) := by
  intro fuel
  induction fuel with
  | zero =>
    intro S p i n _ _ x
    show x ∈ S ↔ (x ∈ S ∨ ∃ k, n ≤ k ∧ k < n ∧ p.getD k 0 = x)
    constructor
    · exact Or.inl
    · rintro (h | ⟨k, hk1, hk2, _⟩)
      · exact h
      · omega
  | succ f ih =>
    intro S p i n hni hlen x
    have hi : i < p.length := by omega
    rw [sweepAux_succ]
    split_ifs with hc
    · have hlen' : (i+1) + f = ((p.set i (p.getD n 0)).set n (p.getD i 0)).length := by
        simp only [List.length_set]; omega
      rw [ih (p.getD i 0 :: S) _ (i+1) (n+1) (by omega) hlen' x]
      have hfront := sweepAux_front G f S p i n hni hi
      have hcnt := (sweepAux_cnt_bounds G f (p.getD i 0 :: S)
        ((p.set i (p.getD n 0)).set n (p.getD i 0)) (i+1) (n+1)).1
      constructor
      · rintro (hxS | ⟨k, hk1, hk2, hk3⟩)
        · rcases List.mem_cons.1 hxS with rfl | hxS'
          · exact Or.inr ⟨n, le_refl n, by omega, hfront⟩
          · exact Or.inl hxS'
        · exact Or.inr ⟨k, by omega, hk2, hk3⟩
      · rintro (hxS | ⟨k, hk1, hk2, hk3⟩)
        · exact Or.inl (List.mem_cons_of_mem _ hxS)
        · rcases Nat.eq_or_lt_of_le hk1 with rfl | hklt
          · exact Or.inl (by rw [← hk3, hfront]; exact List.mem_cons_self _ _)
          · exact Or.inr ⟨k, by omega, hk2, hk3⟩
    · exact ih S p (i+1) n (by omega) (by omega) x

/-- Every package selected during a sweep has all its dependencies either
already selected when the sweep started or sitting at an earlier front
position of the same sweep. -/
theorem sweepAux_order (G : Graph) :
    ∀ (fuel : Nat) (S p : List Nat) (i n : Nat), n ≤ i → i + fuel = p.length →
      ∀ k, n ≤ k → k < (sweepAux G fuel S p i n).cnt →
        ∀ d ∈ G.deps ((sweepAux G fuel S p i n).lst.getD k 0),
          d ∈ S ∨ ∃ j, n ≤ j ∧ j < k ∧ (sweepAux G fuel S p i n).lst.getD j 0 = d := by
  intro fuel
  induction fuel with
  | zero =>
    intro S p i n _ _ k hk1 hk2
    have hcnt : (sweepAux G 0 S p i n).cnt = n := rfl
    omega
  | succ f ih =>
    intro S p i n hni hlen k hk1 hk2 d hd
    have hi : i < p.length := by omega
    rw [sweepAux_succ] at hk2 hd ⊢
    split_ifs at hk2 hd ⊢ with hc
    · have hlen' : (i+1) + f = ((p.set i (p.getD n 0)).set n (p.getD i 0)).length := by
        simp only [List.length_set]; omega
      have hfront := sweepAux_front G f S p i n hni hi
      rcases Nat.eq_or_lt_of_le hk1 with rfl | hklt
      · rw [hfront] at hd
        exact Or.inl ((all_contains_iff S _).1 hc d hd)
      · rcases ih (p.getD i 0 :: S) _ (i+1) (n+1) (by omega) hlen' k (by omega) hk2 d hd with
          hS' | ⟨j, hj1, hj2, hj3⟩
        · rcases List.mem_cons.1 hS' with rfl | hdS
          · exact Or.inr ⟨n, le_refl n, hklt, hfront⟩
          · exact Or.inl hdS
        · exact Or.inr ⟨j, by omega, hj2, hj3⟩
    · exact ih S p (i+1) n (by omega) (by omega) k hk1 hk2 d hd

/-- If some not-yet-visited package has all its dependencies selected, the
sweep selects at least one package. -/
theorem sweepAux_progress (G : Graph) :
    ∀ (fuel : Nat) (S p : List Nat) (i n : Nat), n ≤ i → i + fuel = p.length →
      (∃ x ∈ p.drop i, ∀ d ∈ G.deps x, d ∈ S) →
      n < (sweepAux G fuel S p i n).cnt := by
  intro fuel
  induction fuel with
  | zero =>
    intro S p i n _ hlen hex
    rcases hex with ⟨x, hx, _⟩
    rw [List.drop_eq_nil_of_le (by omega)] at hx
    simp at hx
  | succ f ih =>
    intro S p i n hni hlen hex
    have hi : i < p.length := by omega
    rw [sweepAux_succ]
    split_ifs with hc
    · exact lt_of_lt_of_le (by omega)
        (sweepAux_cnt_bounds G f (p.getD i 0 :: S)
          ((p.set i (p.getD n 0)).set n (p.getD i 0)) (i+1) (n+1)).1
    · rcases hex with ⟨x, hx, hdeps⟩
      rw [List.drop_eq_getElem_cons hi] at hx
      rcases List.mem_cons.1 hx with rfl | hx'
      · exfalso
        apply hc
        rw [all_contains_iff]
        intro d hd
        apply hdeps d
        rw [List.getD_eq_getElem _ _ hi] at hd
        exact hd
      · exact ih S p (i+1) n (by omega) (by omega) ⟨x, hx', hdeps⟩

/-- A sweep that selects nothing leaves both the selected set and the slice
untouched. -/
theorem sweepAux_stuck (G : Graph) :
    ∀ (fuel : Nat) (S p : List Nat) (i n : Nat),
      (sweepAux G fuel S p i n).cnt = n →
      (sweepAux G fuel S p i n).sel = S ∧ (sweepAux G fuel S p i n).lst = p := by
  intro fuel
  induction fuel with
  | zero => intro S p i n _; exact ⟨rfl, rfl⟩
  | succ f ih =>
    intro S p i n hcnt
    rw [sweepAux_succ] at hcnt ⊢
    split_ifs at hcnt ⊢ with hc
    · have := (sweepAux_cnt_bounds G f (p.getD i 0 :: S)
        ((p.set i (p.getD n 0)).set n (p.getD i 0)) (i+1) (n+1)).1
      omega
    · exact ih S p (i+1) n hcnt

/-- On a list whose every package has all dependencies strictly earlier,
the sweep selects everything in order and performs only identity swaps. -/
theorem sweepAux_ordered (G : Graph) :
    ∀ (fuel : Nat) (S p : List Nat) (i : Nat), i + fuel = p.length →
      (∀ j, j < i → p.getD j 0 ∈ S) →
      (∀ k, k < p.length → ∀ d ∈ G.deps (p.getD k 0), ∃ j, j < k ∧ p.getD j 0 = d) →
      (sweepAux G fuel S p i i).lst = p ∧ (sweepAux G fuel S p i i).cnt = p.length := by
  intro fuel
  induction fuel with
  | zero =>
    intro S p i hlen _ _
    refine ⟨rfl, ?_⟩
    show i = p.length
    omega
  | succ f ih =>
    intro S p i hlen hsel hord
    have hi : i < p.length := by omega
    rw [sweepAux_succ]
    have hcond : (G.deps (p.getD i 0)).all (fun d => S.contains d) = true := by
      rw [all_contains_iff]
      intro d hd
      rcases hord i hi d hd with ⟨j, hj, hjd⟩
      rw [← hjd]
      exact hsel j hj
    rw [if_pos hcond]
    have hswap : (p.set i (p.getD i 0)).set i (p.getD i 0) = p := by
      rw [List.set_set, set_getD_self p i hi]
    rw [hswap]
    refine ih (p.getD i 0 :: S) p (i+1) (by omega) ?_ hord
    intro j hj
    rcases Nat.lt_or_ge j i with hji | hji
    · exact List.mem_cons_of_mem _ (hsel j hji)
    · have : j = i := by omega
      rw [this]
      exact List.mem_cons_self _ _

/-- Whatever the sort loop returns on success is a permutation of the
fixed prefix plus the remaining slice. -/
theorem topoSortAux_perm (G : Graph) :
    ∀ (fuel : Nat) (S p acc out : List Nat),
      topoSortAux G fuel S p acc = .ok out → List.Perm out (acc ++ p) := by
  intro fuel
  induction fuel with
  | zero => intro S p acc out h; simp [topoSortAux] at h
  | succ f ih =>
    intro S p acc out h
    rw [topoSortAux_succ] at h
    split_ifs at h with hemp hcnt
    · rw [List.isEmpty_iff] at hemp
      simp only [Except.ok.injEq] at h
      rw [← h, hemp, List.append_nil]
    · have hperm := sweepAux_perm G p.length S p 0 0 (le_refl 0) (by omega)
      have h1 := ih _ _ _ _ h
      rw [List.append_assoc, List.take_append_drop] at h1
      exact h1.trans (List.Perm.append_left acc hperm)

/-- C7: `topologicalSort` is the identity on a correctly ordered input —
every package's dependencies occurring strictly earlier makes the single
sweep select everything with identity swaps — and, in general, a
successful sort returns a permutation of its input. -/
theorem topologicalSort_idempotent (G : Graph) (p : List Nat)
    (hord : ∀ k, k < p.length → ∀ d ∈ G.deps (p.getD k 0),
      ∃ j, j < k ∧ p.getD j 0 = d) :
    topologicalSort G p = .ok p ∧
      ∀ (q out : List Nat), topologicalSort G q = .ok out → List.Perm out q := by
  constructor
  · unfold topologicalSort
    by_cases hne : p = []
    · subst hne; rfl
    · have hpos : 0 < p.length := List.length_pos.2 hne
      rw [topoSortAux_succ, if_neg (by simp [List.isEmpty_iff, hne])]
      have hsweep := sweepAux_ordered G p.length [] p 0 (by omega) (by omega) hord
      rw [hsweep.1, hsweep.2, if_neg (by omega)]
      rw [List.drop_length, List.take_length, List.nil_append]
      obtain ⟨f, hf⟩ : ∃ f, p.length = f + 1 := ⟨p.length - 1, by omega⟩
      rw [hf, topoSortAux_succ]
      rfl
  · intro q out h
    have := topoSortAux_perm G (q.length + 1) [] q [] out h
    rwa [List.nil_append] at this

/-- C7 witness: the two-package list `[0, 1]` with `1` depending on `0` is
already correctly ordered and is returned unchanged. -/
theorem topologicalSort_idempotent_witness :
    topologicalSort ⟨fun _ => "", fun k => if k = 1 then [0] else []⟩ [0, 1] =
      .ok [0, 1] :=
  (topologicalSort_idempotent ⟨fun _ => "", fun k => if k = 1 then [0] else []⟩ [0, 1]
    (by decide)).1

/-- Unfolding equation for one iteration of the cycle walk. -/
theorem findCycleAux_succ (G : Graph) (pkgSet : List Nat) (fuel : Nat)
    (cycle : List Nat) (seen : List (Nat × Nat)) :
    findCycleAux G pkgSet (fuel+1) cycle seen =
      match (G.deps (cycle.getLastD 0)).findSome? (fun d => seenLookup seen d) with
      | some i => some (cycle, i)
      | none =>
        match (G.deps (cycle.getLastD 0)).find? (fun d => pkgSet.contains d) with
        | none => none
        | some dep =>
          findCycleAux G pkgSet fuel (cycle ++ [dep]) ((dep, cycle.length) :: seen) := rfl

/-- The last element of a nonempty list is a member. -/
theorem getLastD_mem_of_ne_nil (l : List Nat) (h : l ≠ []) : l.getLastD 0 ∈ l := by
  rw [List.getLastD_eq_getLast?, List.getLast?_eq_getLast l h]
  exact List.getLast_mem h

/-- Totality of the cycle walk: when every member of `pkgSet` has a
dependency inside `pkgSet`, the walk always finds a dependency to follow
(no `nil` dereference) and revisits a package before exhausting
`pkgSet.dedup.length + 1` rounds, returning the walk, a valid cut index,
the unchanged start, and only members of `pkgSet`. -/
theorem findCycleAux_total (G : Graph) (pkgSet : List Nat)
    (hdep : ∀ x ∈ pkgSet, ∃ d ∈ G.deps x, d ∈ pkgSet) :
    ∀ (fuel : Nat) (cycle : List Nat) (seen : List (Nat × Nat)),
      cycle ≠ [] →
      (∀ c ∈ cycle, c ∈ pkgSet) →
      ((seen.map (fun e => e.1)).Nodup) →
      (∀ e ∈ seen, e.1 ∈ pkgSet) →
      (∀ e ∈ seen, e.2 < cycle.length) →
      pkgSet.dedup.length + 1 ≤ fuel + seen.length →
      ∃ w i, findCycleAux G pkgSet fuel cycle seen = some (w, i) ∧
        i < w.length ∧ w.head? = cycle.head? ∧ ∀ c ∈ w, c ∈ pkgSet := by
  intro fuel
  induction fuel with
  | zero =>
    intro cycle seen _ _ hnd hsub _ hbound
    exfalso
    have h1 : (seen.map (fun e => e.1)).toFinset.card =
        (seen.map (fun e => e.1)).length := List.toFinset_card_of_nodup hnd
    have h2 : (seen.map (fun e => e.1)).toFinset ⊆ pkgSet.toFinset := by
      intro a ha
      rw [List.mem_toFinset] at ha ⊢
      rcases List.mem_map.1 ha with ⟨e, he, rfl⟩
      exact hsub e he
    have h3 := Finset.card_le_card h2
    rw [h1, List.card_toFinset] at h3
    rw [List.length_map] at h3
    omega
  | succ f ih =>
    intro cycle seen hne hcyc hnd hsub hidx hbound
    rw [findCycleAux_succ]
    cases hfs : (G.deps (cycle.getLastD 0)).findSome? (fun d => seenLookup seen d) with
    | some i =>
      refine ⟨cycle, i, rfl, ?_, rfl, hcyc⟩
      rcases List.exists_of_findSome?_eq_some hfs with ⟨d, _, hd⟩
      unfold seenLookup at hd
      cases hfind : seen.find? (fun e => e.1 == d) with
      | none => rw [hfind] at hd; simp at hd
      | some e =>
        rw [hfind] at hd
        simp at hd
        have := hidx e (List.mem_of_find?_eq_some hfind)
        omega
    | none =>
      have hlast : cycle.getLastD 0 ∈ pkgSet :=
        hcyc _ (getLastD_mem_of_ne_nil cycle hne)
      rcases hdep _ hlast with ⟨d0, hd0, hd0set⟩
      have hfind : (G.deps (cycle.getLastD 0)).find? (fun d => pkgSet.contains d) ≠
          none := by
        intro hnone
        rw [List.find?_eq_none] at hnone
        have := hnone d0 hd0
        rw [List.contains, List.elem_iff] at this
        exact this hd0set
      cases hdepfind : (G.deps (cycle.getLastD 0)).find? (fun d => pkgSet.contains d) with
      | none => exact absurd hdepfind hfind
      | some dep =>
        have hdepset : dep ∈ pkgSet := by
          have := List.find?_some hdepfind
          rwa [List.contains, List.elem_iff] at this
        have hdepnotseen : ∀ e ∈ seen, e.1 ≠ dep := by
          intro e he heq
          have h0 := List.findSome?_eq_none_iff.1 hfs dep (List.mem_of_find?_eq_some hdepfind)
          unfold seenLookup at h0
          cases hf2 : seen.find? (fun e2 => e2.1 == dep) with
          | none =>
            rw [List.find?_eq_none] at hf2
            exact hf2 e he (by simp [heq])
          | some e2 => rw [hf2] at h0; simp at h0
        obtain ⟨w, i, hw, hiw, hhead, hwsub⟩ := ih (cycle ++ [dep])
          ((dep, cycle.length) :: seen)
          (by simp)
          (by
            intro c hc
            rcases List.mem_append.1 hc with hc | hc
            · exact hcyc c hc
            · simp at hc; rw [hc]; exact hdepset)
          (by
            rw [List.map_cons, List.nodup_cons]
            refine ⟨?_, hnd⟩
            intro hmem
            rcases List.mem_map.1 hmem with ⟨e, he, heq⟩
            exact hdepnotseen e he heq)
          (by
            intro e he
            rcases List.mem_cons.1 he with rfl | he'
            · exact hdepset
            · exact hsub e he')
          (by
            intro e he
            rw [List.length_append, List.length_singleton]
            rcases List.mem_cons.1 he with rfl | he'
            · omega
            · have := hidx e he'; omega)
          (by simp only [List.length_cons]; omega)
        refine ⟨w, i, hw, hiw, ?_, hwsub⟩
        rw [hhead, List.head?_append, List.head?_eq_head hne]
        rfl

/-- The scan for the lexicographically smallest import path, from a
nonempty accumulator. -/
theorem findMin_go (G : Graph) :
    ∀ (l : List Nat) (m0 : Nat),
      ∃ m, l.foldl (fun mn pkg =>
          match mn with
          | none => some pkg
          | some m => if G.importPath pkg < G.importPath m then some pkg else some m)
        (some m0) = some m ∧ (m = m0 ∨ m ∈ l) ∧
        G.importPath m ≤ G.importPath m0 ∧
        ∀ x ∈ l, G.importPath m ≤ G.importPath x := by
  intro l
  induction l with
  | nil => intro m0; exact ⟨m0, rfl, Or.inl rfl, le_refl _, by simp⟩
  | cons a rest ih =>
    intro m0
    rw [List.foldl_cons]
    by_cases hlt : G.importPath a < G.importPath m0
    · obtain ⟨m, hm, hmem, hle, hall⟩ := ih a
      rw [show (match some m0 with
          | none => some a
          | some m => if G.importPath a < G.importPath m then some a else some m) =
          some a by simp [hlt]]
      refine ⟨m, hm, ?_, le_trans hle (le_of_lt hlt), ?_⟩
      · rcases hmem with rfl | hm'
        · exact Or.inr (List.mem_cons_self _ _)
        · exact Or.inr (List.mem_cons_of_mem _ hm')
      · intro x hx
        rcases List.mem_cons.1 hx with rfl | hx'
        · exact hle
        · exact hall x hx'
    · obtain ⟨m, hm, hmem, hle, hall⟩ := ih m0
      rw [show (match some m0 with
          | none => some a
          | some m => if G.importPath a < G.importPath m then some a else some m) =
          some m0 by simp [hlt]]
      refine ⟨m, hm, ?_, hle, ?_⟩
      · rcases hmem with rfl | hm'
        · exact Or.inl rfl
        · exact Or.inr (List.mem_cons_of_mem _ hm')
      · intro x hx
        rcases List.mem_cons.1 hx with rfl | hx'
        · exact le_trans hle (le_of_not_lt hlt)
        · exact hall x hx'

/-- On a nonempty package list, `findCycle`'s scan returns a member with
the smallest import path. -/
theorem findMin_spec (G : Graph) (pkgs : List Nat) (hne : pkgs ≠ []) :
    ∃ m, findMin G pkgs = some m ∧ m ∈ pkgs ∧
      ∀ x ∈ pkgs, G.importPath m ≤ G.importPath x := by
  cases pkgs with
  | nil => exact absurd rfl hne
  | cons a rest =>
    unfold findMin
    rw [List.foldl_cons]
    obtain ⟨m, hm, hmem, hle, hall⟩ := findMin_go G rest a
    refine ⟨m, hm, ?_, ?_⟩
    · rcases hmem with rfl | hm'
      · exact List.mem_cons_self _ _
      · exact List.mem_cons_of_mem _ hm'
    · intro x hx
      rcases List.mem_cons.1 hx with rfl | hx'
      · exact hle
      · exact hall x hx'

/-- C10: under the call-site precondition that every package of the
remainder has at least one dependency inside the remainder, `findCycle`
terminates without dereferencing a `nil` package (the inner search always
finds a dependency in the set) and returns a nonempty cycle. -/
theorem findCycle_total (G : Graph) (pkgs : List Nat) (hne : pkgs ≠ [])
    (hdep : ∀ x ∈ pkgs, ∃ d ∈ G.deps x, d ∈ pkgs) :
    ∃ c, findCycle G pkgs = some c ∧ c ≠ [] := by
  obtain ⟨m, hm, hmmem, _⟩ := findMin_spec G pkgs hne
  have hunf : findCycle G pkgs =
      (findCycleAux G pkgs (pkgs.length + 1) [m] [(m, 0)]).map
        (fun r => r.1.drop r.2) := by
    unfold findCycle
    rw [hm]
  obtain ⟨w, i, hw, hiw, _, _⟩ := findCycleAux_total G pkgs hdep (pkgs.length + 1)
    [m] [(m, 0)]
    (by simp)
    (by intro c hc; simp at hc; rw [hc]; exact hmmem)
    (by simp)
    (by intro e he; simp at he; rw [he]; exact hmmem)
    (by intro e he; simp at he; rw [he]; simp)
    (by
      have := (List.dedup_sublist pkgs).length_le
      simp only [List.length_singleton]
      omega)
  refine ⟨w.drop i, ?_, ?_⟩
  · rw [hunf, hw]
    rfl
  · rw [ne_eq, List.drop_eq_nil_iff]
    omega

/-- C10 witness: a two-package cycle (each the other's dependency)
satisfies the precondition and yields a nonempty cycle. -/
theorem findCycle_total_witness :
    ∃ c, findCycle ⟨fun k => if k = 0 then "p" else "q",
        fun k => if k = 0 then [1] else [0]⟩ [0, 1] = some c ∧ c ≠ [] :=
  findCycle_total ⟨fun k => if k = 0 then "p" else "q",
      fun k => if k = 0 then [1] else [0]⟩ [0, 1]
    (by decide) (by decide)

/-- The head of a nonempty list is a member. -/
theorem headD_mem_of_ne_nil (l : List Nat) (h : l ≠ []) : l.headD 0 ∈ l := by
  cases l with
  | nil => exact absurd rfl h
  | cons a t => exact List.mem_cons_self _ _

/-- The cycle walk depends only on the dependency edges of the members of
`pkgSet` (all packages it ever inspects lie in the set). -/
theorem findCycleAux_congr (G G' : Graph) (pkgSet : List Nat)
    (hagree : ∀ x ∈ pkgSet, G'.deps x = G.deps x) :
    ∀ (fuel : Nat) (cycle : List Nat) (seen : List (Nat × Nat)),
      cycle ≠ [] → (∀ c ∈ cycle, c ∈ pkgSet) →
      findCycleAux G' pkgSet fuel cycle seen = findCycleAux G pkgSet fuel cycle seen := by
  intro fuel
  induction fuel with
  | zero => intro _ _ _ _; rfl
  | succ f ih =>
    intro cycle seen hne hcyc
    rw [findCycleAux_succ, findCycleAux_succ]
    have hlast : cycle.getLastD 0 ∈ pkgSet := hcyc _ (getLastD_mem_of_ne_nil cycle hne)
    rw [hagree _ hlast]
    cases (G.deps (cycle.getLastD 0)).findSome? (fun d => seenLookup seen d) with
    | some i => rfl
    | none =>
      cases hdf : (G.deps (cycle.getLastD 0)).find? (fun d => pkgSet.contains d) with
      | none => rfl
      | some dep =>
        apply ih
        · simp
        · intro c hc
          rcases List.mem_append.1 hc with hc | hc
          · exact hcyc c hc
          · simp at hc
            rw [hc]
            have := List.find?_some hdf
            rwa [List.contains, List.elem_iff] at this

/-- The minimum scan depends only on the import paths of members. -/
theorem findMin_go_congr (G G' : Graph) (pkgs : List Nat)
    (hip : ∀ x ∈ pkgs, G'.importPath x = G.importPath x) :
    ∀ (l : List Nat), (∀ x ∈ l, x ∈ pkgs) → ∀ (mn : Option Nat),
      (∀ m0, mn = some m0 → m0 ∈ pkgs) →
      l.foldl (fun mn pkg =>
        match mn with
        | none => some pkg
        | some m => if G'.importPath pkg < G'.importPath m then some pkg else some m) mn =
      l.foldl (fun mn pkg =>
        match mn with
        | none => some pkg
        | some m => if G.importPath pkg < G.importPath m then some pkg else some m) mn := by
  intro l
  induction l with
  | nil => intro _ mn _; rfl
  | cons a rest ih =>
    intro hsub mn hmn
    rw [List.foldl_cons, List.foldl_cons]
    have ha : a ∈ pkgs := hsub a (List.mem_cons_self _ _)
    have hsub' : ∀ x ∈ rest, x ∈ pkgs := fun x hx => hsub x (List.mem_cons_of_mem _ hx)
    cases mn with
    | none => exact ih hsub' (some a) (by rintro m0 ⟨rfl⟩; exact ha)
    | some m0 =>
      have hm0 : m0 ∈ pkgs := hmn m0 rfl
      rw [show (match some m0 with
          | none => some a
          | some m => if G'.importPath a < G'.importPath m then some a else some m) =
          (if G'.importPath a < G'.importPath m0 then some a else some m0) from rfl,
        show (match some m0 with
          | none => some a
          | some m => if G.importPath a < G.importPath m then some a else some m) =
          (if G.importPath a < G.importPath m0 then some a else some m0) from rfl,
        hip a ha, hip m0 hm0]
      split_ifs with h
      · exact ih hsub' (some a) (by rintro x ⟨rfl⟩; exact ha)
      · exact ih hsub' (some m0) (by rintro x ⟨rfl⟩; exact hm0)

/-- `findMin` depends only on the import paths of members. -/
theorem findMin_congr (G G' : Graph) (pkgs : List Nat)
    (hip : ∀ x ∈ pkgs, G'.importPath x = G.importPath x) :
    findMin G' pkgs = findMin G pkgs := by
  unfold findMin
  exact findMin_go_congr G G' pkgs hip pkgs (fun x hx => hx) none (by simp)

/-- C2 (amended): when the sort gets stuck on a remainder in which every
package keeps a dependency inside the remainder, the cycle search is
deterministic — it is a function of the import paths and edges of the
remainder only, so equal inputs give byte-identical reports — and the walk
it cuts the reported cycle from starts at the lexicographically
smallest import path of the remainder; the report is the suffix `cycle[i:]`
of that walk from the first revisited package, so its first import path
need not be the smallest one. -/
theorem findCycle_deterministic (G G' : Graph) (pkgs : List Nat) (hne : pkgs ≠ [])
    (hdep : ∀ x ∈ pkgs, ∃ d ∈ G.deps x, d ∈ pkgs)
    (hip : ∀ x ∈ pkgs, G'.importPath x = G.importPath x)
    (hdeps : ∀ x ∈ pkgs, G'.deps x = G.deps x) :
    ∃ m w i,
      findMin G pkgs = some m ∧ m ∈ pkgs ∧
      (∀ x ∈ pkgs, G.importPath m ≤ G.importPath x) ∧
      findCycleAux G pkgs (pkgs.length + 1) [m] [(m, 0)] = some (w, i) ∧
      w.head? = some m ∧
      findCycle G pkgs = some (w.drop i) ∧
      findCycle G' pkgs = findCycle G pkgs ∧
      cycleError G' pkgs = cycleError G pkgs := by
  obtain ⟨m, hm, hmmem, hmin⟩ := findMin_spec G pkgs hne
  have hunf : findCycle G pkgs =
      (findCycleAux G pkgs (pkgs.length + 1) [m] [(m, 0)]).map
        (fun r => r.1.drop r.2) := by
    unfold findCycle
    rw [hm]
  obtain ⟨w, i, hw, hiw, hhead, hwsub⟩ := findCycleAux_total G pkgs hdep (pkgs.length + 1)
    [m] [(m, 0)]
    (by simp)
    (by intro c hc; simp at hc; rw [hc]; exact hmmem)
    (by simp)
    (by intro e he; simp at he; rw [he]; exact hmmem)
    (by intro e he; simp at he; rw [he]; simp)
    (by
      have := (List.dedup_sublist pkgs).length_le
      simp only [List.length_singleton]
      omega)
  have hcyc : findCycle G pkgs = some (w.drop i) := by
    rw [hunf, hw]
    rfl
  have hcong : findCycle G' pkgs = findCycle G pkgs := by
    have hunf' : findCycle G' pkgs =
        (findCycleAux G' pkgs (pkgs.length + 1) [m] [(m, 0)]).map
          (fun r => r.1.drop r.2) := by
      unfold findCycle
      rw [findMin_congr G G' pkgs hip, hm]
    rw [hunf', hunf,
      findCycleAux_congr G G' pkgs hdeps (pkgs.length + 1) [m] [(m, 0)] (by simp)
        (by intro c hc; simp at hc; rw [hc]; exact hmmem)]
  refine ⟨m, w, i, hm, hmmem, hmin, hw, by simpa using hhead, hcyc, hcong, ?_⟩
  have hdropne : w.drop i ≠ [] := by
    rw [ne_eq, List.drop_eq_nil_iff]
    omega
  have hdropsub : ∀ c ∈ w.drop i, c ∈ pkgs := by
    intro c hc
    exact hwsub c (List.mem_of_mem_drop hc)
  have hmap : (w.drop i).map G'.importPath = (w.drop i).map G.importPath :=
    List.map_congr_left (fun c hc => hip c (hdropsub c hc))
  unfold cycleError
  rw [hcong, hcyc]
  show "parser: cyclic dependency graph: " ++
      String.intercalate " -> "
        ((w.drop i).map G'.importPath ++ [G'.importPath ((w.drop i).headD 0)]) =
    "parser: cyclic dependency graph: " ++
      String.intercalate " -> "
        ((w.drop i).map G.importPath ++ [G.importPath ((w.drop i).headD 0)])
  rw [hmap, hip _ (hdropsub _ (headD_mem_of_ne_nil _ hdropne))]

/-- C2 witness: the amended theorem applied to the stuck remainder of the
graph a→b, b→c, c→b (which is its own cyclic remainder). -/
theorem findCycle_deterministic_witness :
    ∃ m w i,
      findMin ⟨fun k => if k = 0 then "a" else if k = 1 then "b" else "c",
          fun k => if k = 0 then [1] else if k = 1 then [2] else [1]⟩ [0, 1, 2] =
        some m ∧
      m ∈ [0, 1, 2] ∧
      (∀ x ∈ [0, 1, 2],
        Graph.importPath ⟨fun k => if k = 0 then "a" else if k = 1 then "b" else "c",
          fun k => if k = 0 then [1] else if k = 1 then [2] else [1]⟩ m ≤
        Graph.importPath ⟨fun k => if k = 0 then "a" else if k = 1 then "b" else "c",
          fun k => if k = 0 then [1] else if k = 1 then [2] else [1]⟩ x) ∧
      findCycleAux ⟨fun k => if k = 0 then "a" else if k = 1 then "b" else "c",
          fun k => if k = 0 then [1] else if k = 1 then [2] else [1]⟩ [0, 1, 2]
        ([0, 1, 2].length + 1) [m] [(m, 0)] = some (w, i) ∧
      w.head? = some m ∧
      findCycle ⟨fun k => if k = 0 then "a" else if k = 1 then "b" else "c",
          fun k => if k = 0 then [1] else if k = 1 then [2] else [1]⟩ [0, 1, 2] =
        some (w.drop i) ∧
      findCycle ⟨fun k => if k = 0 then "a" else if k = 1 then "b" else "c",
          fun k => if k = 0 then [1] else if k = 1 then [2] else [1]⟩ [0, 1, 2] =
        findCycle ⟨fun k => if k = 0 then "a" else if k = 1 then "b" else "c",
          fun k => if k = 0 then [1] else if k = 1 then [2] else [1]⟩ [0, 1, 2] ∧
      cycleError ⟨fun k => if k = 0 then "a" else if k = 1 then "b" else "c",
          fun k => if k = 0 then [1] else if k = 1 then [2] else [1]⟩ [0, 1, 2] =
        cycleError ⟨fun k => if k = 0 then "a" else if k = 1 then "b" else "c",
          fun k => if k = 0 then [1] else if k = 1 then [2] else [1]⟩ [0, 1, 2] :=
  findCycle_deterministic
    ⟨fun k => if k = 0 then "a" else if k = 1 then "b" else "c",
      fun k => if k = 0 then [1] else if k = 1 then [2] else [1]⟩
    ⟨fun k => if k = 0 then "a" else if k = 1 then "b" else "c",
      fun k => if k = 0 then [1] else if k = 1 then [2] else [1]⟩
    [0, 1, 2] (by decide) (by decide) (fun _ _ => rfl) (fun _ _ => rfl)

/-- C2 counterexample: in the graph a→b, b→c, c→b the sort gets stuck with
remainder `[a, b, c]`; the smallest import path there is `"a"`, yet the
reported cycle is `b -> c -> b`, whose first import path is `"b"` — the
claim that the report starts at the lexicographically smallest import path
of the remainder is false. -/
theorem findCycle_start_counterexample :
    topologicalSort ⟨fun k => if k = 0 then "a" else if k = 1 then "b" else "c",
        fun k => if k = 0 then [1] else if k = 1 then [2] else [1]⟩ [0, 1, 2] =
      .error "parser: cyclic dependency graph: b -> c -> b" ∧
    findCycle ⟨fun k => if k = 0 then "a" else if k = 1 then "b" else "c",
        fun k => if k = 0 then [1] else if k = 1 then [2] else [1]⟩ [0, 1, 2] =
      some [1, 2] ∧
    Graph.importPath ⟨fun k => if k = 0 then "a" else if k = 1 then "b" else "c",
        fun k => if k = 0 then [1] else if k = 1 then [2] else [1]⟩ 1 = "b" ∧
    findMin ⟨fun k => if k = 0 then "a" else if k = 1 then "b" else "c",
        fun k => if k = 0 then [1] else if k = 1 then [2] else [1]⟩ [0, 1, 2] =
      some 0 ∧
    Graph.importPath ⟨fun k => if k = 0 then "a" else if k = 1 then "b" else "c",
        fun k => if k = 0 then [1] else if k = 1 then [2] else [1]⟩ 0 = "a" ∧
    ("b" : String) ≠ "a" := by
  set G3 : Graph := ⟨fun k => if k = 0 then "a" else if k = 1 then "b" else "c",
    fun k => if k = 0 then [1] else if k = 1 then [2] else [1]⟩
  have hba : ¬ G3.importPath 1 < G3.importPath 0 := by
    show ¬ ("b" : String) < "a"
    rw [String.lt_iff_toList_lt]
    decide
  have hca : ¬ G3.importPath 2 < G3.importPath 0 := by
    show ¬ ("c" : String) < "a"
    rw [String.lt_iff_toList_lt]
    decide
  have hmin : findMin G3 [0, 1, 2] = some 0 := by
    have h1 : findMin G3 [0, 1, 2] =
        List.foldl (fun mn pkg =>
          match mn with
          | none => some pkg
          | some m => if G3.importPath pkg < G3.importPath m then some pkg else some m)
          (if G3.importPath 1 < G3.importPath 0 then some 1 else some 0) [2] := rfl
    rw [h1, if_neg hba]
    have h2 : List.foldl (fun mn pkg =>
          match mn with
          | none => some pkg
          | some m => if G3.importPath pkg < G3.importPath m then some pkg else some m)
          (some 0) [2] =
        (if G3.importPath 2 < G3.importPath 0 then some 2 else some 0) := rfl
    rw [h2, if_neg hca]
  have hfcyc : findCycle G3 [0, 1, 2] = some [1, 2] := by
    have h3 : findCycle G3 [0, 1, 2] =
        (findCycleAux G3 [0, 1, 2] 4 [0] [(0, 0)]).map (fun r => r.1.drop r.2) := by
      unfold findCycle
      rw [hmin]
      rfl
    rw [h3]
    rfl
  have herr : cycleError G3 [0, 1, 2] = "parser: cyclic dependency graph: b -> c -> b" := by
    unfold cycleError
    rw [hfcyc]
    rfl
  have hsweep : sweepAux G3 ([0, 1, 2] : List Nat).length [] [0, 1, 2] 0 0 =
      ⟨[], [0, 1, 2], 0⟩ := rfl
  have hsort : topologicalSort G3 [0, 1, 2] = .error (cycleError G3 [0, 1, 2]) := by
    show topoSortAux G3 4 [] [0, 1, 2] [] = _
    rw [show (4 : Nat) = 3 + 1 from rfl, topoSortAux_succ,
      if_neg (by decide : ¬ (([0, 1, 2] : List Nat).isEmpty = true))]
    rw [show ([0, 1, 2] : List Nat).length = 3 from rfl] at hsweep
    rw [show ([0, 1, 2] : List Nat).length = 3 from rfl, hsweep]
    rw [if_pos rfl]
  exact ⟨hsort.trans (by rw [herr]), hfcyc, rfl, hmin, rfl,
    by
      intro h
      have := congrArg String.toList h
      simp at this⟩

/-- Acyclicity restricts to any subset of the package list. -/
theorem acyclicOn_mono (G : Graph) (l l' : List Nat) (hsub : ∀ x ∈ l', x ∈ l) :
    AcyclicOn G l → AcyclicOn G l' := by
  intro h x hx
  exact h x (hx.mono (fun a b hab => ⟨hsub a hab.1, hsub b hab.2.1, hab.2.2⟩))

/-- A ranking function that strictly increases along dependency edges
witnesses acyclicity. -/
theorem acyclicOn_of_rank (G : Graph) (l : List Nat) (f : Nat → Nat)
    (h : ∀ a ∈ l, ∀ b ∈ l, a ∈ G.deps b → f a < f b) : AcyclicOn G l := by
  intro x hx
  have hmono : ∀ u v, Relation.TransGen (fun a b => a ∈ l ∧ b ∈ l ∧ a ∈ G.deps b) u v →
      f u < f v := by
    intro u v huv
    induction huv with
    | single h1 => exact h _ h1.1 _ h1.2.1 h1.2.2
    | tail _ h2 ih => exact lt_trans ih (h _ h2.1 _ h2.2.1 h2.2.2)
  exact absurd (hmono x x hx) (lt_irrefl _)

/-- A nonempty acyclic remainder contains a package none of whose
dependencies lies in the remainder. -/
theorem exists_min_of_acyclicOn (G : Graph) (l : List Nat) (hne : l ≠ [])
    (hacyc : AcyclicOn G l) : ∃ m ∈ l, ∀ d ∈ G.deps m, d ∉ l := by
  haveI : Finite {x : Nat // x ∈ l} := (List.finite_toSet l).to_subtype
  haveI htr : IsTrans {x : Nat // x ∈ l}
      (Relation.TransGen (fun u v : {x : Nat // x ∈ l} => u.1 ∈ G.deps v.1)) :=
    ⟨fun _ _ _ hab hbc => hab.trans hbc⟩
  haveI hirr : IsIrrefl {x : Nat // x ∈ l}
      (Relation.TransGen (fun u v : {x : Nat // x ∈ l} => u.1 ∈ G.deps v.1)) := by
    refine ⟨fun u hu => hacyc u.1 ?_⟩
    exact Relation.TransGen.lift Subtype.val
      (fun a b hab => ⟨a.2, b.2, hab⟩) hu
  have hwf := Finite.wellFounded_of_trans_of_irrefl
    (Relation.TransGen (fun u v : {x : Nat // x ∈ l} => u.1 ∈ G.deps v.1))
  obtain ⟨x, hx⟩ := List.exists_mem_of_ne_nil l hne
  obtain ⟨m, _, hmin⟩ := hwf.has_min Set.univ ⟨⟨x, hx⟩, trivial⟩
  refine ⟨m.1, m.2, ?_⟩
  intro d hd hdl
  exact hmin ⟨d, hdl⟩ trivial (Relation.TransGen.single hd)

/-- Lookup below the bound passes through `take`. -/
theorem getD_take (l : List Nat) (n k : Nat) (h : k < n) :
    (l.take n).getD k 0 = l.getD k 0 := by
  rw [List.getD_eq_getElem?_getD, List.getD_eq_getElem?_getD, List.getElem?_take,
    if_pos h]

/-- Lookup at an offset passes through `drop`. -/
theorem getD_drop (l : List Nat) (n k : Nat) :
    (l.drop n).getD k 0 = l.getD (n + k) 0 := by
  rw [List.getD_eq_getElem?_getD, List.getD_eq_getElem?_getD, List.getElem?_drop]

/-- Lookup below the left length passes through append. -/
theorem getD_append_left (l1 l2 : List Nat) (k : Nat) (h : k < l1.length) :
    (l1 ++ l2).getD k 0 = l1.getD k 0 := by
  rw [List.getD_eq_getElem (l1 ++ l2) 0 (by rw [List.length_append]; omega),
    List.getD_eq_getElem l1 0 h]
  exact List.getElem_append_left h

/-- Lookup past the left length passes through append. -/
theorem getD_append_right (l1 l2 : List Nat) (k : Nat) :
    (l1 ++ l2).getD (l1.length + k) 0 = l2.getD k 0 := by
  rcases Nat.lt_or_ge k l2.length with hk | hk
  · rw [List.getD_eq_getElem (l1 ++ l2) 0 (by rw [List.length_append]; omega),
      List.getD_eq_getElem l2 0 hk]
    rw [List.getElem_append_right (by omega)]
    congr 1
    omega
  · rw [List.getD_eq_getElem?_getD, List.getD_eq_getElem?_getD]
    rw [List.getElem?_eq_none (by rw [List.length_append]; omega),
      List.getElem?_eq_none (by omega)]

/-- Membership as an indexed lookup. -/
theorem mem_iff_getD (l : List Nat) (x : Nat) :
    x ∈ l ↔ ∃ k, k < l.length ∧ l.getD k 0 = x := by
  rw [List.mem_iff_getElem]
  constructor
  · rintro ⟨n, hn, h⟩
    exact ⟨n, hn, by rw [List.getD_eq_getElem _ _ hn]; exact h⟩
  · rintro ⟨n, hn, h⟩
    exact ⟨n, hn, by rw [← List.getD_eq_getElem l 0 hn]; exact h⟩

/-- The sort loop on an acyclic, dependency-closed, duplicate-free
remainder always succeeds, and the produced array places every package
after all of its dependencies. -/
theorem topoSortAux_sorted (G : Graph) :
    ∀ (fuel : Nat) (S p acc : List Nat),
      p.length + 1 ≤ fuel →
      p.Nodup →
      (∀ x ∈ p, x ∉ S) →
      (∀ x ∈ p, ∀ d ∈ G.deps x, d ∈ p ∨ d ∈ S) →
      AcyclicOn G p →
      (∀ x, x ∈ S ↔ x ∈ acc) →
      (∀ k, k < acc.length → ∀ d ∈ G.deps (acc.getD k 0),
        ∃ j, j < k ∧ acc.getD j 0 = d) →
      ∃ out, topoSortAux G fuel S p acc = .ok out ∧
        ∀ k, k < out.length → ∀ d ∈ G.deps (out.getD k 0),
          ∃ j, j < k ∧ out.getD j 0 = d := by
  intro fuel
  induction fuel with
  | zero => intro S p acc hfuel; omega
  | succ f ih =>
    intro S p acc hfuel hnd hdisj hcl hacyc hSacc haccord
    by_cases hp : p.isEmpty
    · rw [topoSortAux_succ, if_pos hp]
      exact ⟨acc, rfl, haccord⟩
    · have hpne : p ≠ [] := by
        intro h
        rw [h] at hp
        exact hp rfl
      have hplen : 0 < p.length := List.length_pos.2 hpne
      obtain ⟨m, hmem, hmmin⟩ := exists_min_of_acyclicOn G p hpne hacyc
      have hmdeps : ∀ d ∈ G.deps m, d ∈ S := by
        intro d hd
        rcases hcl m hmem d hd with hdp | hdS
        · exact absurd hdp (hmmin d hd)
        · exact hdS
      have hprog : 0 < (sweepAux G p.length S p 0 0).cnt :=
        sweepAux_progress G p.length S p 0 0 (le_refl 0) (by omega)
          ⟨m, by rwa [List.drop_zero], hmdeps⟩
      rw [topoSortAux_succ, if_neg hp, if_neg (by omega)]
      have hlenR : (sweepAux G p.length S p 0 0).lst.length = p.length :=
        sweepAux_length G p.length S p 0 0
      have hperR : List.Perm (sweepAux G p.length S p 0 0).lst p :=
        sweepAux_perm G p.length S p 0 0 (le_refl 0) (by omega)
      have hcntR := (sweepAux_cnt_bounds G p.length S p 0 0).2
      have hselR := sweepAux_sel_iff G p.length S p 0 0 (le_refl 0) (by omega)
      have hordR := sweepAux_order G p.length S p 0 0 (le_refl 0) (by omega)
      have hndR : (sweepAux G p.length S p 0 0).lst.Nodup := (hperR.nodup_iff).2 hnd
      refine ih (sweepAux G p.length S p 0 0).sel
        ((sweepAux G p.length S p 0 0).lst.drop (sweepAux G p.length S p 0 0).cnt)
        (acc ++ (sweepAux G p.length S p 0 0).lst.take (sweepAux G p.length S p 0 0).cnt)
        ?_ ?_ ?_ ?_ ?_ ?_ ?_
      · rw [List.length_drop, hlenR]
        omega
      · exact (List.drop_sublist _ _).nodup hndR
      · intro x hx hxS'
        obtain ⟨k0, hk0, hk0x⟩ := (mem_iff_getD _ x).1 hx
        rw [List.length_drop] at hk0
        rw [getD_drop] at hk0x
        rcases (hselR x).1 hxS' with hxS | ⟨k, _, hk, hkx⟩
        · exact hdisj x (hperR.mem_iff.1 (List.mem_of_mem_drop hx)) hxS
        · have h1 : (sweepAux G p.length S p 0 0).lst.getD k 0 =
              (sweepAux G p.length S p 0 0).lst.getD
                ((sweepAux G p.length S p 0 0).cnt + k0) 0 := by
            rw [hkx, hk0x]
          have hklt : k < (sweepAux G p.length S p 0 0).lst.length := by omega
          have hk0lt : (sweepAux G p.length S p 0 0).cnt + k0 <
              (sweepAux G p.length S p 0 0).lst.length := by omega
          rw [List.getD_eq_getElem _ _ hklt, List.getD_eq_getElem _ _ hk0lt] at h1
          have := (hndR.getElem_inj_iff).1 h1
          omega
      · intro x hx d hd
        have hxp : x ∈ p := hperR.mem_iff.1 (List.mem_of_mem_drop hx)
        rcases hcl x hxp d hd with hdp | hdS
        · obtain ⟨kd, hkd, hkdd⟩ := (mem_iff_getD _ d).1 (hperR.mem_iff.2 hdp)
          rcases Nat.lt_or_ge kd (sweepAux G p.length S p 0 0).cnt with hlt | hge
          · exact Or.inr ((hselR d).2 (Or.inr ⟨kd, Nat.zero_le _, hlt, hkdd⟩))
          · refine Or.inl ((mem_iff_getD _ d).2
              ⟨kd - (sweepAux G p.length S p 0 0).cnt, ?_, ?_⟩)
            · rw [List.length_drop]
              omega
            · rw [getD_drop,
                show (sweepAux G p.length S p 0 0).cnt +
                  (kd - (sweepAux G p.length S p 0 0).cnt) = kd by omega]
              exact hkdd
        · exact Or.inr ((hselR d).2 (Or.inl hdS))
      · exact acyclicOn_mono G p _
          (fun x hx => hperR.mem_iff.1 (List.mem_of_mem_drop hx)) hacyc
      · intro x
        rw [hselR x, hSacc, List.mem_append]
        constructor
        · rintro (hacc | ⟨k, _, hk, hkx⟩)
          · exact Or.inl hacc
          · refine Or.inr ((mem_iff_getD _ x).2 ⟨k, ?_, ?_⟩)
            · rw [List.length_take]
              omega
            · rw [getD_take _ _ _ hk]
              exact hkx
        · rintro (hacc | htake)
          · exact Or.inl hacc
          · obtain ⟨k, hk, hkx⟩ := (mem_iff_getD _ x).1 htake
            rw [List.length_take] at hk
            refine Or.inr ⟨k, Nat.zero_le _, by omega, ?_⟩
            rw [← getD_take (sweepAux G p.length S p 0 0).lst
              (sweepAux G p.length S p 0 0).cnt k (by omega)]
            exact hkx
      · intro k hk d hd
        rw [List.length_append, List.length_take] at hk
        rcases Nat.lt_or_ge k acc.length with hkacc | hkacc
        · rw [getD_append_left _ _ _ hkacc] at hd
          obtain ⟨j, hj, hjd⟩ := haccord k hkacc d hd
          exact ⟨j, by omega, by rw [getD_append_left _ _ _ (by omega)]; exact hjd⟩
        · obtain ⟨k2, rfl⟩ : ∃ k2, k = acc.length + k2 := ⟨k - acc.length, by omega⟩
          have hk2 : k2 < (sweepAux G p.length S p 0 0).cnt := by omega
          rw [getD_append_right, getD_take _ _ _ hk2] at hd
          rcases hordR k2 (Nat.zero_le _) hk2 d hd with hdS | ⟨j2, _, hj2, hj2d⟩
          · obtain ⟨j, hj, hjd⟩ := (mem_iff_getD _ d).1 ((hSacc d).1 hdS)
            exact ⟨j, by omega, by rw [getD_append_left _ _ _ hj]; exact hjd⟩
          · refine ⟨acc.length + j2, by omega, ?_⟩
            rw [getD_append_right, getD_take _ _ _ (by omega)]
            exact hj2d

/-- C1: on every acyclic dependency graph whose edges stay inside the
duplicate-free package list, `topologicalSort` succeeds and returns a
permutation of the list in which every dependency occurs strictly before
its dependent. -/
theorem topologicalSort_acyclic (G : Graph) (p : List Nat)
    (hnd : p.Nodup)
    (hcl : ∀ x ∈ p, ∀ d ∈ G.deps x, d ∈ p)
    (hacyc : AcyclicOn G p) :
    ∃ out, topologicalSort G p = .ok out ∧ List.Perm out p ∧
      ∀ k, k < out.length → ∀ d ∈ G.deps (out.getD k 0),
        ∃ j, j < k ∧ out.getD j 0 = d := by
  obtain ⟨out, hok, hord⟩ := topoSortAux_sorted G (p.length + 1) [] p []
    (le_refl _) hnd (by simp) (fun x hx d hd => Or.inl (hcl x hx d hd)) hacyc
    (by simp) (by simp)
  have hperm := topoSortAux_perm G (p.length + 1) [] p [] out hok
  rw [List.nil_append] at hperm
  exact ⟨out, hok, hperm, hord⟩

/-- C1 witness: the acyclic two-package graph where `1` depends on `0`
(acyclicity witnessed by the identity ranking). -/
theorem topologicalSort_acyclic_witness :
    ∃ out, topologicalSort ⟨fun _ => "", fun k => if k = 1 then [0] else []⟩ [1, 0] =
        .ok out ∧ List.Perm out [1, 0] ∧
      ∀ k, k < out.length →
        ∀ d ∈ Graph.deps ⟨fun _ => "", fun k => if k = 1 then [0] else []⟩
          (out.getD k 0),
        ∃ j, j < k ∧ out.getD j 0 = d :=
  topologicalSort_acyclic ⟨fun _ => "", fun k => if k = 1 then [0] else []⟩ [1, 0]
    (by decide) (by decide)
    (acyclicOn_of_rank ⟨fun _ => "", fun k => if k = 1 then [0] else []⟩ [1, 0]
      (fun n => n) (by decide))
